import Mathlib

/-!
Verification of the core of the MonetDB Rust client driver.

Byte strings are modelled as `List Nat` (each element a byte value 0..255
where it matters).  Fallible code returns `Except`; the error enums mirror
the Rust enums, with string payloads carried as byte lists and some
diagnostic-only payloads dropped.
-/

set_option maxHeartbeats 1000000
set_option maxRecDepth 100000

deriving instance DecidableEq for Except

/-- Bytes of an ASCII string literal. -/
def strBytes (s : String) : List Nat :=
  s.toList.map Char.toNat

/-- Index of the first occurrence of a byte, as memchr in the source. -/
def findByteIdx (sep : Nat) : List Nat → Option Nat
  | [] => none
  | b :: rest =>
    if b = sep then some 0
    else (findByteIdx sep rest).map (· + 1)

/-- Rust str split on a single byte separator: the list of pieces
(always at least one piece, empty pieces preserved). -/
def splitOnByte (sep : Nat) : List Nat → List (List Nat)
  | [] => [[]]
  | b :: rest =>
    match splitOnByte sep rest with
    | [] => []
    | h :: t => if b = sep then [] :: h :: t else (b :: h) :: t

/-- Ascii whitespace test, as u8::is_ascii_whitespace (space, tab, LF, FF, CR). -/
def isAsciiWs (b : Nat) : Bool :=
  b = 32 || b = 9 || b = 10 || b = 12 || b = 13

/-- Models slice::trim_ascii: remove leading and trailing ascii whitespace. -/
def trimAscii (l : List Nat) : List Nat :=
  ((l.dropWhile isAsciiWs).reverse.dropWhile isAsciiWs).reverse

/-- Continuation byte test for UTF-8 validation. -/
def validUtf8 : List Nat → Bool
  | [] => true
  | b :: rest =>
    if b ≤ 127 then validUtf8 rest
    else if 194 ≤ b ∧ b ≤ 223 then
      match rest with
      | c1 :: r => if 128 ≤ c1 ∧ c1 ≤ 191 then validUtf8 r else false
      | [] => false
    else if b = 224 then
      match rest with
      | c1 :: c2 :: r =>
        if 160 ≤ c1 ∧ c1 ≤ 191 ∧ 128 ≤ c2 ∧ c2 ≤ 191 then validUtf8 r else false
      | _ => false
    else if 225 ≤ b ∧ b ≤ 236 then
      match rest with
      | c1 :: c2 :: r =>
        if 128 ≤ c1 ∧ c1 ≤ 191 ∧ 128 ≤ c2 ∧ c2 ≤ 191 then validUtf8 r else false
      | _ => false
    else if b = 237 then
      match rest with
      | c1 :: c2 :: r =>
        if 128 ≤ c1 ∧ c1 ≤ 159 ∧ 128 ≤ c2 ∧ c2 ≤ 191 then validUtf8 r else false
      | _ => false
    else if 238 ≤ b ∧ b ≤ 239 then
      match rest with
      | c1 :: c2 :: r =>
        if 128 ≤ c1 ∧ c1 ≤ 191 ∧ 128 ≤ c2 ∧ c2 ≤ 191 then validUtf8 r else false
      | _ => false
    else if b = 240 then
      match rest with
      | c1 :: c2 :: c3 :: r =>
        if 144 ≤ c1 ∧ c1 ≤ 191 ∧ 128 ≤ c2 ∧ c2 ≤ 191 ∧ 128 ≤ c3 ∧ c3 ≤ 191 then
          validUtf8 r
        else false
      | _ => false
    else if 241 ≤ b ∧ b ≤ 243 then
      match rest with
      | c1 :: c2 :: c3 :: r =>
        if 128 ≤ c1 ∧ c1 ≤ 191 ∧ 128 ≤ c2 ∧ c2 ≤ 191 ∧ 128 ≤ c3 ∧ c3 ≤ 191 then
          validUtf8 r
        else false
      | _ => false
    else if b = 244 then
      match rest with
      | c1 :: c2 :: c3 :: r =>
        if 128 ≤ c1 ∧ c1 ≤ 143 ∧ 128 ≤ c2 ∧ c2 ≤ 191 ∧ 128 ≤ c3 ∧ c3 ≤ 191 then
          validUtf8 r
        else false
      | _ => false
    else false

/-- Mirrors enum BadReply of src/cursor/replies.rs (string payloads dropped
or carried as byte lists). -/
inductive BadReply where
  | Unicode : BadReply
  | UnknownResponse : List Nat → BadReply
  | SepNotFound : Nat → BadReply
  | InvalidHeader : BadReply
  | UnexpectedHeader : List Nat → BadReply
  | UnexpectedEnd : BadReply
  | TooManyColumns : Nat → BadReply
  | TooFewColumns : Nat → BadReply
  | InvalidBackslashEscape : BadReply
  | ColumnIndexOutOfBounds : Nat → Nat → BadReply
deriving DecidableEq, Repr

/-- Mirrors enum FramingError of src/framing/mod.rs (the part used here). -/
inductive FramingError where
  | InvalidBlockSize : FramingError
  | Unicode : FramingError
deriving DecidableEq, Repr

/-- Mirrors enum CursorError of src/cursor/mod.rs (payloads simplified:
the Server message is a byte list, diagnostic strings are dropped). -/
inductive CursorError where
  | Server : List Nat → CursorError
  | Closed : CursorError
  | Framing : FramingError → CursorError
  | badReply : BadReply → CursorError
  | NoResultSet : CursorError
  | Conversion : CursorError
deriving DecidableEq, Repr

/-- Mirrors enum ConnectError of src/framing/connecting.rs (the part used
here; message payloads carried as byte lists). -/
inductive ConnectError where
  | InvalidChallenge : ConnectError
  | UnsupportedHashAlgo : ConnectError
  | TooManyRedirects : ConnectError
  | Rejected : List Nat → ConnectError
  | UnexpectedResponse : List Nat → ConnectError
deriving DecidableEq, Repr

/-! ### Connection core: Conn::run_locked (src/conn.rs lines 126-148) -/

/-- Mirrors struct Locked of src/conn.rs: server state, the socket slot,
and the delayed-command queue.  The socket is abstracted to a `Nat` id;
the state and delayed queue are type parameters. -/
structure Locked (σ δ : Type) where
  state : σ
  sock : Option Nat
  delayed : δ
deriving Repr

/-- Mirrors Conn::run_locked: take the socket out of the slot (empty slot
means the connection is closed), run the closure, store the returned socket
back on success, leave the slot empty on error.  The closure returns the
socket together with the possibly mutated state and delayed queue. -/
def run_locked {σ δ : Type} (l : Locked σ δ)
    (f : σ → δ → Nat → Except CursorError Nat × σ × δ) :
    Except CursorError Unit × Locked σ δ :=
  match l.sock with
  | none => (.error .Closed, l)
  | some sock =>
    match f l.state l.delayed sock with
    | (.ok sock2, st, d) => (.ok (), ⟨st, some sock2, d⟩)
    | (.error e, st, d) => (.error e, ⟨st, none, d⟩)

/-! ### Handshake response construction (src/framing/connecting.rs 223-271) -/

/-- Hex digit as used by hex::encode (lowercase). -/
def hexDigit (n : Nat) : Nat :=
  if n < 10 then 48 + n else 87 + n

/-- Models hex::encode on a byte list. -/
def hexEncode : List Nat → List Nat
  | [] => []
  | b :: rest => hexDigit (b / 16) :: hexDigit (b % 16) :: hexEncode rest

/-- Mirrors the credential selection at the top of challenge_response:
a merovingian server gets user merovingian with an empty password,
any other server type gets the configured user and password. -/
def credentials (serverType parmsUser parmsPassword : List Nat) :
    List Nat × List Nat :=
  if serverType = strBytes "merovingian" then (strBytes "merovingian", [])
  else (parmsUser, parmsPassword)

/-- Mirrors the prehashed_password computation of challenge_response:
when the password starts with byte 1 the password is used as is
(Cow::Borrowed(password), including the leading byte); otherwise the
password is hashed with the prehash algorithm and hex encoded.  The
digest functions are abstract parameters. -/
def prehashed_password (prehash : List Nat → List Nat) (password : List Nat) :
    List Nat :=
  if password.headD 0 = 1 then password else hexEncode (prehash password)

/-- Mirrors the session hash computation of challenge_response: the
response algorithm digests the prehashed password followed by the salt,
and the digest is hex encoded. -/
def session_hash (respAlgo prehash : List Nat → List Nat)
    (password salt : List Nat) : List Nat :=
  hexEncode (respAlgo (prehashed_password prehash password ++ salt))

/-- The fixed part of the handshake response line,
endian:user:\x7balgo\x7dhash:language:database:FILETRANS:
(58 is the colon, 123 and 125 are the braces). -/
def response_head (endian user algoName sessionHash language database : List Nat) :
    List Nat :=
  endian ++ [58] ++ user ++ [58, 123] ++ algoName ++ [125] ++ sessionHash
    ++ [58] ++ language ++ [58] ++ database ++ [58] ++ strBytes "FILETRANS:"

/-- Mirrors the assembly of the response head in challenge_response
(native endian is little endian here, written LIT). -/
def challenge_response_head (respAlgo prehash : List Nat → List Nat)
    (algoName serverType salt parmsUser parmsPassword language database : List Nat) :
    List Nat :=
  let creds := credentials serverType parmsUser parmsPassword
  response_head (strBytes "LIT") creds.1 algoName
    (session_hash respAlgo prehash creds.2 salt) language database

/-! ### Reply header parsing (src/cursor/replies.rs parse_header) -/

/-- Models u64::from_str on ascii digits (an optional leading plus sign,
then at least one digit; overflow is not modelled). -/
def parseU64 (p : List Nat) : Option Nat :=
  let digits := match p with | 43 :: rest => rest | _ => p
  match digits with
  | [] => none
  | _ => go digits 0
where
  go : List Nat → Nat → Option Nat
    | [], acc => some acc
    | d :: rest, acc =>
      if 48 ≤ d ∧ d ≤ 57 then go rest (acc * 10 + (d - 48)) else none

/-- Mirrors ReplyBuf::split: consume up to and including the separator,
returning the bytes before it and the rest of the buffer. -/
def replySplit (sep : Nat) (buf : List Nat) :
    Except BadReply (List Nat × List Nat) :=
  match findByteIdx sep buf with
  | none => if buf = [] then .error .UnexpectedEnd else .error (.SepNotFound sep)
  | some idx => .ok (buf.take idx, buf.drop (idx + 1))

/-- Parses n space separated header items in order, as the loop of
ReplyParser::parse_header over dest. -/
def takeParse : Nat → List (List Nat) → Except BadReply (List Nat)
  | 0, _ => .ok []
  | _ + 1, [] => .error .InvalidHeader
  | n + 1, p :: ps =>
    match parseU64 p with
    | none => .error .InvalidHeader
    | some v =>
      match takeParse n ps with
      | .ok vs => .ok (v :: vs)
      | .error e => .error e

/-- Mirrors ReplyParser::parse_header with a dest of n u64 fields: split
one newline terminated line off the buffer, check UTF-8, trim ascii
whitespace, drop the three byte tag, split the rest on spaces and parse
the first n items.  Returns the fields and the remaining buffer. -/
def parse_header_nat (n : Nat) (buf : List Nat) :
    Except BadReply (List Nat × List Nat) :=
  match replySplit 10 buf with
  | .error e => .error e
  | .ok (line, rest) =>
    if validUtf8 line then
      let line := trimAscii line
      match takeParse n (splitOnByte 32 (line.drop 3)) with
      | .error e => .error e
      | .ok fields => .ok (fields, rest)
    else .error .Unicode

/-! ### Row set construction (src/cursor/rowset.rs) -/

/-- Mirrors struct RowSet: the remaining reply buffer (the part after the
read position), the column count, and the recorded field slots.  A slot
holds the field bytes directly, standing for the pointer and length pair
into the buffer of the source. -/
structure RowSet where
  buf : List Nat
  ncols : Nat
  fields : List (Option (List Nat))
deriving DecidableEq, Repr

/-- Mirrors RowSet::new: ncols empty slots. -/
def RowSet.new (buf : List Nat) (ncols : Nat) : RowSet :=
  ⟨buf, ncols, List.replicate ncols none⟩

/-- Mirrors the reply parsing part of Cursor::fetch_more_rows
(src/cursor/mod.rs lines 331-335): parse a four field header
into fields = [result_id, total_rows, ncols, rows_in_this_reply],
then build the replacement row window with
RowSet::new(buf, fields[1] as usize). -/
def fetch_more_rows_rowset (reply : List Nat) : Except BadReply RowSet :=
  match parse_header_nat 4 reply with
  | .error e => .error e
  | .ok (fields, rest) => .ok (RowSet.new rest (fields.getD 1 0))

/-- Mirrors the column count used by ReplyParser::parse_data
(src/cursor/replies.rs lines 435-446): the third header field ncols
(fields[2]) gives the length of the columns vector, and
RowSet::new(buf, columns.len()) receives it. -/
def parse_data_ncols (reply : List Nat) : Except BadReply Nat :=
  match parse_header_nat 4 reply with
  | .error e => .error e
  | .ok (fields, _) => .ok (fields.getD 2 0)

/-! ### Error scan (src/cursor/replies.rs detect_errors) -/

/-- Index of the first occurrence of the two byte needle LF-bang,
as memmem::find(response, b"\n!"). -/
def findNlBang : List Nat → Option Nat
  | [] => none
  | [_] => none
  | a :: b :: rest =>
    if a = 10 ∧ b = 33 then some 0
    else (findNlBang (b :: rest)).map (· + 1)

/-- Mirrors ReplyParser::detect_errors: an empty response is fine; a bang
at offset 0 starts the message one byte later; otherwise the first
LF-bang pair starts it at pos + 1 (the index of the bang itself); no such
pair means no error.  The message runs up to the next newline. -/
def detect_errors (response : List Nat) : Except CursorError Unit :=
  if response = [] then .ok ()
  else
    let startOpt : Option Nat :=
      if response.headD 0 = 33 then some 1
      else match findNlBang response with
        | some pos => some (pos + 1)
        | none => none
    match startOpt with
    | none => .ok ()
    | some start =>
      let bytes := response.drop start
      let bytes := match findByteIdx 10 bytes with
        | some idx => bytes.take idx
        | none => bytes
      let message :=
        if validUtf8 bytes then bytes
        else strBytes "server sent an error message but it cannot be decoded"
      .error (.Server message)

/-! ### Claim theorems for C1, C2, C6, C8, C10 -/

/-- C1: the claim says the replacement row window built by fetch_more_rows
uses the third header field ncols as its column count.  The code instead
uses fields[1], which is total_rows: on the Xexport reply header
&1 17 100 2 5 the window gets 100 columns while the third field (and the
column count parse_data would use) is 2. -/
theorem c1_fetch_more_rows_uses_wrong_field :
    ((fetch_more_rows_rowset (strBytes "&1 17 100 2 5\n")).map RowSet.ncols
      = .ok 100)
    ∧ parse_data_ncols (strBytes "&1 17 100 2 5\n") = .ok 2
    ∧ (100 : Nat) ≠ 2 := by
  refine ⟨by decide, by decide, by decide⟩

/-- C2: the claim says a password starting with byte 1 is used with the
leading byte removed.  The code keeps the whole password including the
leading byte 1, so the session hash digests the byte 1 as well: with
identity digests, password [1, 97, 98] and salt [115], the hash input is
[1, 97, 98, 115], not the [97, 98, 115] the claim requires. -/
theorem c2_prehash_keeps_leading_byte :
    prehashed_password (fun x => x) [1, 97, 98] = [1, 97, 98]
    ∧ session_hash (fun x => x) (fun x => x) [1, 97, 98] [115]
        = hexEncode [1, 97, 98, 115]
    ∧ hexEncode [1, 97, 98, 115] ≠ hexEncode [97, 98, 115] := by
  refine ⟨by decide, by decide, by decide⟩

/-- C6: on the reply buffer with a successful section, then an error
line, then another successful section, detect_errors does surface a
Server error (the bang is right after a newline), but the surfaced text
starts with the bang itself, not with the character after it as the
claim states. -/
theorem c6_detect_errors_message_keeps_bang :
    detect_errors (strBytes "&3 2\n!ERROR syntax\n&2 1\n")
      = .error (.Server (strBytes "!ERROR syntax"))
    ∧ strBytes "!ERROR syntax" ≠ strBytes "ERROR syntax" := by
  refine ⟨by decide, by decide⟩

/-- C8: run_locked fails with Closed when the socket slot is empty; the
closure receives the socket taken out of the slot; on closure success the
returned socket is stored back; on closure error the slot stays empty and
every subsequent run_locked call returns Closed. -/
theorem c8_run_locked_socket_discipline {σ δ : Type} (l : Locked σ δ)
    (f : σ → δ → Nat → Except CursorError Nat × σ × δ) :
    (l.sock = none → run_locked l f = (.error .Closed, l))
    ∧ (∀ s, l.sock = some s →
        (∀ s2 st d, f l.state l.delayed s = (.ok s2, st, d) →
          run_locked l f = (.ok (), ⟨st, some s2, d⟩))
        ∧ (∀ e st d, f l.state l.delayed s = (.error e, st, d) →
            run_locked l f = (.error e, ⟨st, none, d⟩)
            ∧ ∀ g, (run_locked (run_locked l f).2 g).1
                = .error CursorError.Closed)) := by
  constructor
  · intro h
    simp [run_locked, h]
  · intro s hs
    constructor
    · intro s2 st d hf
      simp [run_locked, hs, hf]
    · intro e st d hf
      refine ⟨by simp [run_locked, hs, hf], ?_⟩
      intro g
      simp [run_locked, hs, hf]

/-- Witness for C8 at a concrete connection: an empty slot fails Closed,
and after a closure error the slot is empty so the next call fails Closed. -/
theorem c8_run_locked_socket_discipline_witness :
    run_locked (Locked.mk () (none : Option Nat) ()) (fun s d n => (.ok n, s, d))
      = (.error .Closed, Locked.mk () none ())
    ∧ run_locked (Locked.mk () (some 7) ())
        (fun s d _ => (.error .NoResultSet, s, d))
        = (.error .NoResultSet, Locked.mk () none ()) := by
  constructor
  · exact (c8_run_locked_socket_discipline (Locked.mk () none ())
      (fun s d n => (.ok n, s, d))).1 rfl
  · exact (((c8_run_locked_socket_discipline (Locked.mk () (some 7) ())
      (fun s d _ => (.error .NoResultSet, s, d))).2 7 rfl).2 .NoResultSet () () rfl).1

/-- C10: when the parsed challenge names server type merovingian, the
response head is built with user merovingian and the empty password,
whatever the configured user and password are; for any other server type
the configured user and password are used. -/
theorem c10_merovingian_credentials
    (respAlgo prehash : List Nat → List Nat)
    (algoName salt u p language database : List Nat) :
    challenge_response_head respAlgo prehash algoName
        (strBytes "merovingian") salt u p language database
      = response_head (strBytes "LIT") (strBytes "merovingian") algoName
          (session_hash respAlgo prehash [] salt) language database
    ∧ ∀ serverType, serverType ≠ strBytes "merovingian" →
        challenge_response_head respAlgo prehash algoName
            serverType salt u p language database
          = response_head (strBytes "LIT") u algoName
              (session_hash respAlgo prehash p salt) language database := by
  constructor
  · simp [challenge_response_head, credentials]
  · intro st hst
    simp [challenge_response_head, credentials, hst]

/-- Witness for C10: a non merovingian server type keeps the configured
credentials. -/
theorem c10_merovingian_credentials_witness :
    challenge_response_head (fun x => x) (fun x => x) [] (strBytes "monetdb")
        [] (strBytes "joe") (strBytes "pw") (strBytes "sql") (strBytes "db")
      = response_head (strBytes "LIT") (strBytes "joe") []
          (session_hash (fun x => x) (fun x => x) (strBytes "pw") [])
          (strBytes "sql") (strBytes "db") :=
  (c10_merovingian_credentials (fun x => x) (fun x => x) [] []
      (strBytes "joe") (strBytes "pw") (strBytes "sql") (strBytes "db")).2
    (strBytes "monetdb") (by decide)

/-! ### Backslash escape decoding (src/cursor/replies.rs convert_backslashes) -/

/-- Prepend an unescaped byte to the result of the remaining decode. -/
def consCont (u : Nat) :
    Except BadReply (List Nat × List Nat) → Except BadReply (List Nat × List Nat)
  | .ok (d, r) => .ok (u :: d, r)
  | .error e => .error e

/-- Mirrors the pointer loop of ReplyBuf::convert_backslashes, reading from
the bytes after the opening quote: reaching the end of the buffer before a
closing quote is UnexpectedEnd; a backslash at the very end is
InvalidBackslashEscape; the named escapes decode to their bytes; an octal
escape with leading digit 0 to 3 reads two more digits whose wrapped
values must fit in three bits; any other escaped character is
InvalidBackslashEscape; an unescaped quote stops the loop.  Returns the
decoded bytes and the buffer after the closing quote. -/
def unescapeLoop : List Nat → Except BadReply (List Nat × List Nat)
  | [] => .error .UnexpectedEnd
  | b :: rest =>
    if b = 92 then
      match rest with
      | [] => .error .InvalidBackslashEscape
      | c :: rest2 =>
        if c = 116 then consCont 9 (unescapeLoop rest2)
        else if c = 110 then consCont 10 (unescapeLoop rest2)
        else if c = 102 then consCont 12 (unescapeLoop rest2)
        else if c = 114 then consCont 13 (unescapeLoop rest2)
        else if c = 92 then consCont 92 (unescapeLoop rest2)
        else if c = 34 then consCont 34 (unescapeLoop rest2)
        else if 48 ≤ c ∧ c ≤ 51 then
          match rest2 with
          | e2 :: e3 :: rest3 =>
            let d1 := c - 48
            let d2 := (e2 + 256 - 48) % 256
            let d3 := (e3 + 256 - 48) % 256
            if (d2 ||| d3) &&& 248 ≠ 0 then .error .InvalidBackslashEscape
            else consCont ((d1 <<< 6) ||| (d2 <<< 3) ||| d3) (unescapeLoop rest3)
          | _ => .error .UnexpectedEnd
        else .error .InvalidBackslashEscape
    else if b = 34 then .ok ([], rest)
    else consCont b (unescapeLoop rest)

/-- Mirrors ReplyBuf::convert_backslashes on the remaining buffer: the
first skip bytes after the read position are kept as they are (they were
already checked to hold no backslash), decoding starts after them, and
the result is the kept part plus the decoded part, together with the
buffer that follows the closing quote. -/
def convert_backslashes (peek : List Nat) (skip : Nat) :
    Except BadReply (List Nat × List Nat) :=
  match unescapeLoop (peek.drop skip) with
  | .error e => .error e
  | .ok (decoded, rest) => .ok (peek.take skip ++ decoded, rest)

/-- The documented wrap encoding of one byte, as the escape helper of the
test test_rowset_escaped_strings in src/cursor/rowset.rs: tab, newline,
carriage return, backslash and quote get named escapes, other control or
high bytes get a three digit octal escape, everything else is verbatim. -/
def escByte (b : Nat) : List Nat :=
  if b = 9 then [92, 116]
  else if b = 10 then [92, 110]
  else if b = 13 then [92, 114]
  else if b = 92 then [92, 92]
  else if b = 34 then [92, 34]
  else if b ≤ 31 ∨ 127 ≤ b then [92, 48 + b / 64, 48 + b / 8 % 8, 48 + b % 8]
  else [b]

/-- Wrap encoding of a byte string (without the surrounding quotes). -/
def mapiEscape : List Nat → List Nat
  | [] => []
  | b :: rest => escByte b ++ mapiEscape rest

theorem small_or_and : ∀ x y : Fin 8, ((x.val ||| y.val) &&& 248) = 0 := by
  decide

theorem octal_recombine :
    ∀ b : Fin 256,
      ((b.val / 64) <<< 6) ||| ((b.val / 8 % 8) <<< 3) ||| (b.val % 8) = b.val := by
  decide

/-- Step lemma: decoding stops at an unescaped quote. -/
theorem unescapeLoop_quote (l : List Nat) : unescapeLoop (34 :: l) = .ok ([], l) := by
  rw [unescapeLoop.eq_def]; simp

/-- Step lemma: a byte that is neither a backslash nor a quote is copied. -/
theorem unescapeLoop_plain (b : Nat) (l : List Nat) (h92 : b ≠ 92) (h34 : b ≠ 34) :
    unescapeLoop (b :: l) = consCont b (unescapeLoop l) := by
  rw [unescapeLoop.eq_def]; simp [h92, h34]

/-- Step lemma: a valid octal escape decodes to the recombined byte. -/
theorem unescapeLoop_octal (c e2 e3 : Nat) (l : List Nat)
    (hc1 : ¬c = 116) (hc2 : ¬c = 110) (hc3 : ¬c = 102) (hc4 : ¬c = 114)
    (hc5 : ¬c = 92) (hc6 : ¬c = 34) (hcr : 48 ≤ c ∧ c ≤ 51)
    (h : (((e2 + 256 - 48) % 256) ||| ((e3 + 256 - 48) % 256)) &&& 248 = 0) :
    unescapeLoop (92 :: c :: e2 :: e3 :: l)
      = consCont (((c - 48) <<< 6) ||| (((e2 + 256 - 48) % 256) <<< 3)
          ||| ((e3 + 256 - 48) % 256)) (unescapeLoop l) := by
  have he2 : e2 + 256 - 48 = e2 + 208 := by omega
  have he3 : e3 + 256 - 48 = e3 + 208 := by omega
  rw [he2, he3] at h ⊢
  rw [unescapeLoop.eq_def]
  simp [hc1, hc2, hc3, hc4, hc5, hc6, hcr, h]

theorem mapiEscape_append (s t : List Nat) :
    mapiEscape (s ++ t) = mapiEscape s ++ mapiEscape t := by
  induction s with
  | nil => simp [mapiEscape]
  | cons b s ih => simp [mapiEscape, ih]

/-- Decoding inverts the wrap encoding: the decoded field is the original
byte string and the rest of the buffer follows the closing quote. -/
theorem unescape_escape (s : List Nat) (hs : ∀ b ∈ s, b < 256) (t : List Nat) :
    unescapeLoop (mapiEscape s ++ 34 :: t) = .ok (s, t) := by
  induction s with
  | nil => simp [mapiEscape, unescapeLoop_quote]
  | cons b s ih =>
    have hb : b < 256 := hs b (by simp)
    have hs2 : ∀ x ∈ s, x < 256 := fun x hx => hs x (by simp [hx])
    have ih2 := ih hs2
    by_cases h9 : b = 9
    · subst h9
      show unescapeLoop (92 :: 116 :: (mapiEscape s ++ 34 :: t)) = _
      rw [unescapeLoop.eq_def]; simp [ih2, consCont]
    by_cases h10 : b = 10
    · subst h10
      show unescapeLoop (92 :: 110 :: (mapiEscape s ++ 34 :: t)) = _
      rw [unescapeLoop.eq_def]; simp [ih2, consCont]
    by_cases h13 : b = 13
    · subst h13
      show unescapeLoop (92 :: 114 :: (mapiEscape s ++ 34 :: t)) = _
      rw [unescapeLoop.eq_def]; simp [ih2, consCont]
    by_cases h92 : b = 92
    · subst h92
      show unescapeLoop (92 :: 92 :: (mapiEscape s ++ 34 :: t)) = _
      rw [unescapeLoop.eq_def]; simp [ih2, consCont]
    by_cases h34 : b = 34
    · subst h34
      show unescapeLoop (92 :: 34 :: (mapiEscape s ++ 34 :: t)) = _
      rw [unescapeLoop.eq_def]; simp [ih2, consCont]
    by_cases hoct : b ≤ 31 ∨ 127 ≤ b
    · have hd2 : b / 8 % 8 < 8 := Nat.mod_lt _ (by norm_num)
      have hd3 : b % 8 < 8 := Nat.mod_lt _ (by norm_num)
      have hw2 : (48 + b / 8 % 8 + 256 - 48) % 256 = b / 8 % 8 := by omega
      have hw3 : (48 + b % 8 + 256 - 48) % 256 = b % 8 := by omega
      have hand : ((b / 8 % 8 ||| b % 8) &&& 248) = 0 :=
        small_or_and ⟨b / 8 % 8, hd2⟩ ⟨b % 8, hd3⟩
      have hval : ((b / 64) <<< 6) ||| ((b / 8 % 8) <<< 3) ||| (b % 8) = b :=
        octal_recombine ⟨b, hb⟩
      have hesc : escByte b = [92, 48 + b / 64, 48 + b / 8 % 8, 48 + b % 8] := by
        simp [escByte, h9, h10, h13, h92, h34, hoct]
      have hstep := unescapeLoop_octal (48 + b / 64) (48 + b / 8 % 8) (48 + b % 8)
        (mapiEscape s ++ 34 :: t)
        (by omega) (by omega) (by omega) (by omega) (by omega) (by omega)
        (by omega) (by rw [hw2, hw3]; exact hand)
      have hsub : 48 + b / 64 - 48 = b / 64 := by omega
      show unescapeLoop ((escByte b ++ mapiEscape s) ++ 34 :: t) = _
      rw [hesc]
      simp only [List.cons_append, List.nil_append, List.append_assoc]
      rw [hstep, hw2, hw3, hsub, hval, ih2]
      simp [consCont]
    · have hesc : escByte b = [b] := by
        simp [escByte, h9, h10, h13, h92, h34, hoct]
      show unescapeLoop ((escByte b ++ mapiEscape s) ++ 34 :: t) = _
      rw [hesc]
      simp only [List.cons_append, List.nil_append, List.append_assoc]
      rw [unescapeLoop_plain b _ h92 h34, ih2]
      simp [consCont]

/-- A backslash followed by an unrecognized character makes decoding fail
with InvalidBackslashEscape, wherever it occurs after a plain prefix. -/
theorem unescape_bad_escape (p : List Nat) (c : Nat) (t : List Nat)
    (hp : ∀ b ∈ p, b ≠ 92 ∧ b ≠ 34)
    (hc : c ≠ 116 ∧ c ≠ 110 ∧ c ≠ 102 ∧ c ≠ 114 ∧ c ≠ 92 ∧ c ≠ 34
      ∧ ¬(48 ≤ c ∧ c ≤ 51)) :
    unescapeLoop (p ++ 92 :: c :: t) = .error .InvalidBackslashEscape := by
  induction p with
  | nil =>
    rw [List.nil_append, unescapeLoop.eq_def]
    simp [hc.1, hc.2.1, hc.2.2.1, hc.2.2.2.1, hc.2.2.2.2.1,
      hc.2.2.2.2.2.1, hc.2.2.2.2.2.2]
  | cons b p ih =>
    have hb := hp b (by simp)
    have hp2 : ∀ x ∈ p, x ≠ 92 ∧ x ≠ 34 := fun x hx => hp x (by simp [hx])
    rw [List.cons_append, unescapeLoop_plain b _ hb.1 hb.2, ih hp2]
    simp [consCont]

/-- C5: wrap encoding a byte string with the documented escape dialect and
decoding it with the in-place unescape of the row decoder recovers the
string exactly; and a quoted field in which a backslash is followed by an
unrecognized character fails with InvalidBackslashEscape. -/
theorem c5_escape_dialect_roundtrip :
    (∀ s : List Nat, (∀ b ∈ s, b < 256) →
      convert_backslashes (mapiEscape s ++ [34]) 0 = .ok (s, []))
    ∧ (∀ (p : List Nat) (c : Nat) (t : List Nat),
        (∀ b ∈ p, b ≠ 92 ∧ b ≠ 34) →
        (c ≠ 116 ∧ c ≠ 110 ∧ c ≠ 102 ∧ c ≠ 114 ∧ c ≠ 92 ∧ c ≠ 34
          ∧ ¬(48 ≤ c ∧ c ≤ 51)) →
        convert_backslashes (p ++ 92 :: c :: t) 0
          = .error .InvalidBackslashEscape) := by
  constructor
  · intro s hs
    have h := unescape_escape s hs []
    simp [convert_backslashes, h]
  · intro p c t hp hc
    have h := unescape_bad_escape p c t hp hc
    simp [convert_backslashes, h]

/-- Witness for C5 on concrete inputs: the bytes of b-umlaut-nana survive
the round trip, and backslash x is rejected. -/
theorem c5_escape_dialect_roundtrip_witness :
    convert_backslashes (mapiEscape [98, 195, 164, 9, 34] ++ [34]) 0
      = .ok ([98, 195, 164, 9, 34], [])
    ∧ convert_backslashes ([98, 97] ++ 92 :: 120 :: [34]) 0
      = .error .InvalidBackslashEscape := by
  constructor
  · exact c5_escape_dialect_roundtrip.1 [98, 195, 164, 9, 34] (by decide)
  · exact c5_escape_dialect_roundtrip.2 [98, 97] 120 [34] (by decide) (by decide)

/-! ### Row decoding (src/cursor/rowset.rs do_advance, get_field_raw, get_str) -/

/-- Index and value of the first quote or backslash, as
ReplyBuf::find2(b of quote, b of backslash) built on memchr2. -/
def findQuoteOrBackslash : List Nat → Option (Nat × Nat)
  | [] => none
  | b :: rest =>
    if b = 34 ∨ b = 92 then some (0, b)
    else (findQuoteOrBackslash rest).map (fun pr => (pr.1 + 1, pr.2))

/-- Mirrors the quoted branch of RowSet::do_advance, entered after the
opening quote has been consumed: find the first quote or backslash; none
means UnexpectedEnd; a quote means the field is the bytes before it, and
the data, the quote, possibly the comma, and the tab are consumed; a
backslash means convert_backslashes runs with the backslash position as
skip, and then the comma (when present) and the tab are consumed.
Returns the field bytes and the remaining buffer. -/
def parseQuotedField (q : List Nat) (comma_skip : Nat) :
    Except BadReply (List Nat × List Nat) :=
  match findQuoteOrBackslash q with
  | none => .error .UnexpectedEnd
  | some (pos, ch) =>
    if ch = 34 then .ok (q.take pos, q.drop (pos + 1 + comma_skip + 1))
    else
      match convert_backslashes q pos with
      | .error e => .error e
      | .ok (field, rest) => .ok (field, rest.drop (comma_skip + 1))

/-- Mirrors the unquoted branch of RowSet::do_advance: split at the next
tab, drop the trailing comma when this is not the last column, and record
None exactly when the remaining bytes are the literal NULL. -/
def parseRawField (buf : List Nat) (comma_skip : Nat) :
    Except BadReply (Option (List Nat) × List Nat) :=
  match replySplit 9 buf with
  | .error e => .error e
  | .ok (rough, rest) =>
    let adjusted := rough.take (rough.length - comma_skip)
    .ok (if adjusted = strBytes "NULL" then none else some adjusted, rest)

/-- The field loop of RowSet::do_advance: one iteration per existing
field slot, with index i; comma_skip is 1 for all but the last column.
An empty buffer in field position is UnexpectedEnd (peek().first() gave
none); a closing bracket is TooFewColumns, a quote starts a quoted field,
anything else is an unquoted field.  Returns the new slots and the
remaining buffer. -/
def advanceFields (ncols : Nat) :
    Nat → List (Option (List Nat)) → List Nat →
    Except BadReply (List (Option (List Nat)) × List Nat)
  | _, [], buf => .ok ([], buf)
  | i, _ :: restSlots, buf =>
    let comma_skip := if i + 1 < ncols then 1 else 0
    match buf.head? with
    | none => .error .UnexpectedEnd
    | some first =>
      if first = 93 then .error (.TooFewColumns i)
      else if first = 34 then
        match parseQuotedField (buf.drop 1) comma_skip with
        | .error e => .error e
        | .ok (field, rest) =>
          match advanceFields ncols (i + 1) restSlots rest with
          | .error e => .error e
          | .ok (slots, rest2) => .ok (some field :: slots, rest2)
      else
        match parseRawField buf comma_skip with
        | .error e => .error e
        | .ok (slot, rest) =>
          match advanceFields ncols (i + 1) restSlots rest with
          | .error e => .error e
          | .ok (slots, rest2) => .ok (slot :: slots, rest2)

/-- Mirrors RowSet::do_advance: a buffer that does not start with an
opening bracket means no more rows and all slots are cleared to None;
otherwise the bracket and the following space are consumed, the field
loop runs, and the row must close with bracket newline (else
SepNotFound).  On success the two closing bytes are consumed. -/
def RowSet.do_advance (rs : RowSet) : Except BadReply (Bool × RowSet) :=
  match rs.buf with
  | 91 :: _ =>
    match advanceFields rs.ncols 0 rs.fields (rs.buf.drop 2) with
    | .error e => .error e
    | .ok (slots, rest) =>
      match rest with
      | 93 :: 10 :: tail => .ok (true, ⟨tail, rs.ncols, slots⟩)
      | _ => .error (.SepNotFound 93)
  | _ => .ok (false, ⟨rs.buf, rs.ncols, rs.fields.map (fun _ => none)⟩)

/-- Mirrors RowSet::get_field_raw: an index beyond the slots vector gives
None, a NULL slot gives None, otherwise the recorded bytes. -/
def RowSet.get_field_raw (rs : RowSet) (idx : Nat) : Option (List Nat) :=
  match rs.fields.get? idx with
  | none => none
  | some f => f

/-- Mirrors RowSet::get_str: no field means Ok(None); present bytes are
UTF-8 validated and returned. -/
def RowSet.get_str (rs : RowSet) (idx : Nat) :
    Except CursorError (Option (List Nat)) :=
  match rs.get_field_raw idx with
  | none => .ok none
  | some bytes =>
    if validUtf8 bytes then .ok (some bytes) else .error (.badReply .Unicode)

/-- Counterexample to C3 as stated: on the three column row from the
test data of the source, after a successful advance, get_str with the out
of bounds index 3 returns Ok(None), not a BadReply error. -/
theorem c3_counterexample :
    (RowSet.new (strBytes "[ 11,\tNULL,\t33\t]\n") 3).do_advance
      = .ok (true, ⟨[], 3, [some (strBytes "11"), none, some (strBytes "33")]⟩)
    ∧ RowSet.get_str ⟨[], 3, [some (strBytes "11"), none, some (strBytes "33")]⟩ 3
      = .ok none := by
  refine ⟨by decide, by decide⟩

/-- C3 amended: a typed getter called with a column index at or beyond
the number of recorded slots returns Ok(None), the same answer as for a
NULL field, rather than a BadReply error. -/
theorem c3_out_of_bounds_gives_none (rs : RowSet) (idx : Nat)
    (h : rs.fields.length ≤ idx) :
    rs.get_str idx = .ok none := by
  have hnone : rs.fields.get? idx = none := List.get?_eq_none.mpr h
  simp only [RowSet.get_str, RowSet.get_field_raw, hnone]

/-- Witness for the amended C3 at the concrete row of the counterexample. -/
theorem c3_out_of_bounds_gives_none_witness :
    RowSet.get_str ⟨[], 3, [some (strBytes "11"), none, some (strBytes "33")]⟩ 4
      = .ok none :=
  c3_out_of_bounds_gives_none
    ⟨[], 3, [some (strBytes "11"), none, some (strBytes "33")]⟩ 4 (by decide)

/-! ### Wire rows for C7: encoding a row and parsing it back -/

/-- A source field of a wire row: SQL NULL, an unquoted token, or a
quoted string. -/
inductive WireField where
  | null : WireField
  | raw : List Nat → WireField
  | quoted : List Nat → WireField
deriving DecidableEq, Repr

/-- The slot do_advance is expected to record for each source field. -/
def slotOf : WireField → Option (List Nat)
  | .null => none
  | .raw bs => some bs
  | .quoted s => some s

/-- Bytes of one field on the wire. -/
def encodeField : WireField → List Nat
  | .null => strBytes "NULL"
  | .raw bs => bs
  | .quoted s => 34 :: (mapiEscape s ++ [34])

/-- Bytes of the fields of a row after the opening bracket and space:
a comma and tab after every field except the last, a tab after the last. -/
def encodeFieldsTail : List WireField → List Nat
  | [] => []
  | [f] => encodeField f ++ [9]
  | f :: g :: rest => encodeField f ++ [44, 9] ++ encodeFieldsTail (g :: rest)

/-- Bytes of a whole wire row: bracket, space, fields, bracket, newline. -/
def encodeRow (fs : List WireField) : List Nat :=
  91 :: 32 :: (encodeFieldsTail fs ++ [93, 10])

/-- Well-formedness of a source field: an unquoted token holds no tab,
is not the literal NULL, and does not begin with a quote or a closing
bracket; a quoted string holds bytes. -/
def ValidField : WireField → Prop
  | .null => True
  | .raw bs => (∀ b ∈ bs, b ≠ 9) ∧ bs ≠ strBytes "NULL"
      ∧ bs.head? ≠ some 34 ∧ bs.head? ≠ some 93
  | .quoted s => ∀ b ∈ s, b < 256

theorem take_append_self (x y : List Nat) : (x ++ y).take x.length = x := by
  induction x with
  | nil => simp
  | cons a x ih => simp [ih]

theorem drop_append_extra (x y : List Nat) (k : Nat) :
    (x ++ y).drop (x.length + k) = y.drop k := by
  induction x with
  | nil => simp
  | cons a x ih => simp [Nat.succ_add, ih]

theorem drop_append_self (x y : List Nat) : (x ++ y).drop x.length = y := by
  simp [drop_append_extra x y 0]

theorem headD_append_cons (x : List Nat) (c : Nat) (y : List Nat) :
    (x ++ c :: y).head? = some (x.headD c) := by
  cases x <;> simp

theorem findByteIdx_append (sep : Nat) (p t : List Nat)
    (hp : ∀ b ∈ p, b ≠ sep) :
    findByteIdx sep (p ++ sep :: t) = some p.length := by
  induction p with
  | nil => simp [findByteIdx]
  | cons a p ih =>
    have ha : a ≠ sep := hp a (by simp)
    simp [findByteIdx, ha, ih (fun b hb => hp b (by simp [hb]))]

theorem findQB_append (p t : List Nat) (x : Nat) (hx : x = 34 ∨ x = 92)
    (hp : ∀ b ∈ p, b ≠ 34 ∧ b ≠ 92) :
    findQuoteOrBackslash (p ++ x :: t) = some (p.length, x) := by
  induction p with
  | nil => simp [findQuoteOrBackslash, hx]
  | cons a p ih =>
    have ha := hp a (by simp)
    simp [findQuoteOrBackslash, ha.1, ha.2,
      ih (fun b hb => hp b (by simp [hb]))]

theorem escByte_plain_ne (b : Nat) (h : escByte b = [b]) : b ≠ 34 ∧ b ≠ 92 := by
  constructor
  · intro hb; subst hb; exact absurd h (by decide)
  · intro hb; subst hb; exact absurd h (by decide)

theorem escByte_shape (b : Nat) : escByte b = [b] ∨ ∃ u, escByte b = 92 :: u := by
  unfold escByte
  split_ifs
  · exact Or.inr ⟨_, rfl⟩
  · exact Or.inr ⟨_, rfl⟩
  · exact Or.inr ⟨_, rfl⟩
  · exact Or.inr ⟨_, rfl⟩
  · exact Or.inr ⟨_, rfl⟩
  · exact Or.inr ⟨_, rfl⟩
  · exact Or.inl rfl

theorem mapiEscape_plain (s : List Nat) (h : ∀ b ∈ s, escByte b = [b]) :
    mapiEscape s = s := by
  induction s with
  | nil => rfl
  | cons a s ih =>
    have := h a (by simp)
    simp [mapiEscape, this, ih (fun b hb => h b (by simp [hb]))]

theorem plain_decomp (s : List Nat) :
    (∀ b ∈ s, escByte b = [b])
    ∨ ∃ p b s2, s = p ++ b :: s2 ∧ (∀ x ∈ p, escByte x = [x])
        ∧ escByte b ≠ [b] := by
  induction s with
  | nil => exact Or.inl (by simp)
  | cons a s ih =>
    by_cases ha : escByte a = [a]
    · rcases ih with h | ⟨p, b, s2, hdec, hp, hb⟩
      · refine Or.inl ?_
        intro x hx
        rcases List.mem_cons.mp hx with rfl | hx2
        · exact ha
        · exact h x hx2
      · refine Or.inr ⟨a :: p, b, s2, by rw [hdec, List.cons_append], ?_, hb⟩
        intro x hx
        rcases List.mem_cons.mp hx with rfl | hx2
        · exact ha
        · exact hp x hx2
    · exact Or.inr ⟨[], a, s, by simp, by simp, ha⟩

/-- The quoted branch of do_advance parses an encoded quoted field back to
its source bytes and consumes the separator bytes after the field. -/
theorem parseQuotedField_encode (s : List Nat) (hs : ∀ b ∈ s, b < 256)
    (cs : Nat) (t : List Nat) :
    parseQuotedField (mapiEscape s ++ 34 :: t) cs = .ok (s, t.drop (cs + 1)) := by
  rcases plain_decomp s with hplain | ⟨p, b, s2, hdec, hp, hb⟩
  · have hid : mapiEscape s = s := mapiEscape_plain s hplain
    have hne : ∀ x ∈ s, x ≠ 34 ∧ x ≠ 92 :=
      fun x hx => escByte_plain_ne x (hplain x hx)
    unfold parseQuotedField
    rw [hid, findQB_append s t 34 (Or.inl rfl) hne]
    have hdrop : (s ++ 34 :: t).drop (s.length + 1 + cs + 1) = t.drop (cs + 1) := by
      have h1 : s ++ 34 :: t = (s ++ [34]) ++ t := by simp
      have h2 : s.length + 1 + cs + 1 = (s ++ [34]).length + (cs + 1) := by
        simp; omega
      rw [h1, h2, drop_append_extra]
    simp [take_append_self, hdrop]
  · obtain ⟨u, hu⟩ := (escByte_shape b).resolve_left hb
    have hpne : ∀ x ∈ p, x ≠ 34 ∧ x ≠ 92 :=
      fun x hx => escByte_plain_ne x (hp x hx)
    have hpid : mapiEscape p = p := mapiEscape_plain p hp
    have hq : mapiEscape s ++ 34 :: t
        = p ++ 92 :: (u ++ (mapiEscape s2 ++ 34 :: t)) := by
      rw [hdec, mapiEscape_append, hpid]
      simp [mapiEscape, hu]
    have hsb : ∀ x ∈ b :: s2, x < 256 := by
      intro x hx
      apply hs
      rw [hdec]
      rcases List.mem_cons.mp hx with rfl | hx2
      · simp
      · simp [hx2]
    have hun : unescapeLoop (92 :: (u ++ (mapiEscape s2 ++ 34 :: t)))
        = .ok (b :: s2, t) := by
      have : (92 :: u) ++ (mapiEscape s2 ++ 34 :: t)
          = mapiEscape (b :: s2) ++ 34 :: t := by
        simp [mapiEscape, hu]
      rw [show 92 :: (u ++ (mapiEscape s2 ++ 34 :: t))
            = (92 :: u) ++ (mapiEscape s2 ++ 34 :: t) from by simp, this]
      exact unescape_escape (b :: s2) hsb t
    unfold parseQuotedField
    rw [hq, findQB_append p _ 92 (Or.inr rfl) hpne]
    have h9234 : ¬ (92 = 34) := by decide
    simp only [if_neg h9234]
    unfold convert_backslashes
    rw [drop_append_self, hun, take_append_self]
    simp [hdec]

/-- The unquoted branch of do_advance on an encoded last field. -/
theorem parseRawField_encode0 (bs t2 : List Nat) (hb : ∀ b ∈ bs, b ≠ 9) :
    parseRawField (bs ++ 9 :: t2) 0
      = .ok (if bs = strBytes "NULL" then none else some bs, t2) := by
  unfold parseRawField replySplit
  rw [findByteIdx_append 9 bs t2 hb]
  have hdrop : (bs ++ 9 :: t2).drop (bs.length + 1) = t2 := by
    have h1 : bs ++ 9 :: t2 = (bs ++ [9]) ++ t2 := by simp
    have h2 : bs.length + 1 = (bs ++ [9]).length := by simp
    rw [h1, h2, drop_append_self]
  simp [take_append_self, hdrop, List.take_length]

/-- The unquoted branch of do_advance on an encoded field followed by a
comma: the trailing comma is split off and dropped again. -/
theorem parseRawField_encode1 (bs t2 : List Nat) (hb : ∀ b ∈ bs, b ≠ 9) :
    parseRawField (bs ++ 44 :: 9 :: t2) 1
      = .ok (if bs = strBytes "NULL" then none else some bs, t2) := by
  unfold parseRawField replySplit
  have hall : ∀ b ∈ bs ++ [44], b ≠ 9 := by
    intro b hbm
    rcases List.mem_append.mp hbm with h | h
    · exact hb b h
    · simp at h; omega
  have hfind : findByteIdx 9 (bs ++ 44 :: 9 :: t2) = some (bs.length + 1) := by
    have h1 : bs ++ 44 :: 9 :: t2 = (bs ++ [44]) ++ 9 :: t2 := by simp
    rw [h1, findByteIdx_append 9 (bs ++ [44]) t2 hall]
    simp
  rw [hfind]
  have htake : (bs ++ 44 :: 9 :: t2).take (bs.length + 1) = bs ++ [44] := by
    have h1 : bs ++ 44 :: 9 :: t2 = (bs ++ [44]) ++ 9 :: t2 := by simp
    have h2 : bs.length + 1 = (bs ++ [44]).length := by simp
    rw [h1, h2, take_append_self]
  have hdrop : (bs ++ 44 :: 9 :: t2).drop (bs.length + 1 + 1) = t2 := by
    have h1 : bs ++ 44 :: 9 :: t2 = (bs ++ [44, 9]) ++ t2 := by simp
    have h2 : bs.length + 1 + 1 = (bs ++ [44, 9]).length := by simp
    rw [h1, h2, drop_append_self]
  simp only [htake, hdrop]
  have hadj : (bs ++ [44]).take ((bs ++ [44]).length - 1) = bs := by
    simp [take_append_self]
  simp [hadj]

theorem headD_ne (bs : List Nat) (c v : Nat) (hc : c ≠ v)
    (h : bs.head? ≠ some v) : bs.headD c ≠ v := by
  cases bs with
  | nil => simpa using hc
  | cons b0 _ => simpa using h

/-- One unquoted field step of the loop when a comma and tab follow. -/
theorem advanceFields_step_raw1 (ncols i : Nat) (s0 : Option (List Nat))
    (slots2 : List (Option (List Nat))) (bs t2 : List Nat)
    (hcs : i + 1 < ncols)
    (htab : ∀ b ∈ bs, b ≠ 9) (h34 : bs.head? ≠ some 34)
    (h93 : bs.head? ≠ some 93) :
    advanceFields ncols i (s0 :: slots2) (bs ++ 44 :: 9 :: t2)
      = match advanceFields ncols (i + 1) slots2 t2 with
        | .error e => .error e
        | .ok (slots, rest2) =>
            .ok ((if bs = strBytes "NULL" then none else some bs) :: slots,
              rest2) := by
  have hhead : (bs ++ 44 :: 9 :: t2).head? = some (bs.headD 44) :=
    headD_append_cons bs 44 (9 :: t2)
  have hne93 : bs.headD 44 ≠ 93 := headD_ne bs 44 93 (by decide) h93
  have hne34 : bs.headD 44 ≠ 34 := headD_ne bs 44 34 (by decide) h34
  simp only [advanceFields, if_pos hcs, hhead, if_neg hne93, if_neg hne34,
    parseRawField_encode1 bs t2 htab]

/-- One unquoted field step of the loop for the last column. -/
theorem advanceFields_step_raw0 (ncols i : Nat) (s0 : Option (List Nat))
    (slots2 : List (Option (List Nat))) (bs t2 : List Nat)
    (hcs : ¬ i + 1 < ncols)
    (htab : ∀ b ∈ bs, b ≠ 9) (h34 : bs.head? ≠ some 34)
    (h93 : bs.head? ≠ some 93) :
    advanceFields ncols i (s0 :: slots2) (bs ++ 9 :: t2)
      = match advanceFields ncols (i + 1) slots2 t2 with
        | .error e => .error e
        | .ok (slots, rest2) =>
            .ok ((if bs = strBytes "NULL" then none else some bs) :: slots,
              rest2) := by
  have hhead : (bs ++ 9 :: t2).head? = some (bs.headD 9) :=
    headD_append_cons bs 9 t2
  have hne93 : bs.headD 9 ≠ 93 := headD_ne bs 9 93 (by decide) h93
  have hne34 : bs.headD 9 ≠ 34 := headD_ne bs 9 34 (by decide) h34
  simp only [advanceFields, if_neg hcs, hhead, if_neg hne93, if_neg hne34,
    parseRawField_encode0 bs t2 htab]

/-- One quoted field step of the loop when a comma and tab follow. -/
theorem advanceFields_step_quoted1 (ncols i : Nat) (s0 : Option (List Nat))
    (slots2 : List (Option (List Nat))) (s t2 : List Nat)
    (hcs : i + 1 < ncols) (hs : ∀ b ∈ s, b < 256) :
    advanceFields ncols i (s0 :: slots2)
        (34 :: (mapiEscape s ++ 34 :: 44 :: 9 :: t2))
      = match advanceFields ncols (i + 1) slots2 t2 with
        | .error e => .error e
        | .ok (slots, rest2) => .ok (some s :: slots, rest2) := by
  have hq := parseQuotedField_encode s hs 1 (44 :: 9 :: t2)
  simp only [advanceFields, if_pos hcs, List.head?_cons, List.drop_succ_cons,
    List.drop_zero]
  norm_num [hq]

/-- One quoted field step of the loop for the last column. -/
theorem advanceFields_step_quoted0 (ncols i : Nat) (s0 : Option (List Nat))
    (slots2 : List (Option (List Nat))) (s t2 : List Nat)
    (hcs : ¬ i + 1 < ncols) (hs : ∀ b ∈ s, b < 256) :
    advanceFields ncols i (s0 :: slots2)
        (34 :: (mapiEscape s ++ 34 :: 9 :: t2))
      = match advanceFields ncols (i + 1) slots2 t2 with
        | .error e => .error e
        | .ok (slots, rest2) => .ok (some s :: slots, rest2) := by
  have hq := parseQuotedField_encode s hs 0 (9 :: t2)
  simp only [advanceFields, if_neg hcs, List.head?_cons, List.drop_succ_cons,
    List.drop_zero]
  norm_num [hq]

/-- The field loop parses an encoded list of well formed fields into
exactly their expected slots, leaving the closing bracket in the buffer. -/
theorem advanceFields_encode (ncols : Nat) (fs : List WireField) (i : Nat)
    (slots : List (Option (List Nat))) (rest : List Nat)
    (hv : ∀ f ∈ fs, ValidField f) (hlen : slots.length = fs.length)
    (hi : i + fs.length = ncols) :
    advanceFields ncols i slots (encodeFieldsTail fs ++ 93 :: 10 :: rest)
      = .ok (fs.map slotOf, 93 :: 10 :: rest) := by
  induction fs generalizing i slots with
  | nil =>
    have hnil : slots = [] := List.length_eq_zero.mp (by simpa using hlen)
    subst hnil
    simp [encodeFieldsTail, advanceFields]
  | cons f fs2 ih =>
    cases slots with
    | nil => simp at hlen
    | cons s0 slots2 =>
      have hlen2 : slots2.length = fs2.length := by simpa using hlen
      have hvf : ValidField f := hv f (by simp)
      have hv2 : ∀ g ∈ fs2, ValidField g := fun g hg => hv g (by simp [hg])
      cases fs2 with
      | nil =>
        have hcs : ¬ i + 1 < ncols := by simp at hi; omega
        have hnil2 : slots2 = [] := List.length_eq_zero.mp (by simpa using hlen2)
        subst hnil2
        have htail : advanceFields ncols (i + 1) [] (93 :: 10 :: rest)
            = .ok ([], 93 :: 10 :: rest) := by simp [advanceFields]
        cases f with
        | null =>
          have henc : encodeFieldsTail [WireField.null] ++ 93 :: 10 :: rest
              = strBytes "NULL" ++ 9 :: 93 :: 10 :: rest := by
            simp [encodeFieldsTail, encodeField]
          rw [henc,
            advanceFields_step_raw0 ncols i s0 [] (strBytes "NULL")
              (93 :: 10 :: rest) hcs (by decide) (by decide) (by decide),
            htail]
          simp [slotOf]
        | raw bs =>
          obtain ⟨htab, hnull, h34, h93⟩ := hvf
          have henc : encodeFieldsTail [WireField.raw bs] ++ 93 :: 10 :: rest
              = bs ++ 9 :: 93 :: 10 :: rest := by
            simp [encodeFieldsTail, encodeField]
          rw [henc,
            advanceFields_step_raw0 ncols i s0 [] bs
              (93 :: 10 :: rest) hcs htab h34 h93,
            htail]
          simp [slotOf, hnull]
        | quoted s =>
          have henc : encodeFieldsTail [WireField.quoted s] ++ 93 :: 10 :: rest
              = 34 :: (mapiEscape s ++ 34 :: 9 :: 93 :: 10 :: rest) := by
            simp [encodeFieldsTail, encodeField]
          rw [henc,
            advanceFields_step_quoted0 ncols i s0 [] s (93 :: 10 :: rest) hcs hvf,
            htail]
          simp [slotOf]
      | cons g gs =>
        have hcs : i + 1 < ncols := by simp at hi; omega
        have hrec := ih (i + 1) slots2 hv2 hlen2 (by simp at hi ⊢; omega)
        cases f with
        | null =>
          have henc : encodeFieldsTail (WireField.null :: g :: gs) ++ 93 :: 10 :: rest
              = strBytes "NULL"
                ++ 44 :: 9 :: (encodeFieldsTail (g :: gs) ++ 93 :: 10 :: rest) := by
            simp [encodeFieldsTail, encodeField]
          rw [henc,
            advanceFields_step_raw1 ncols i s0 slots2 (strBytes "NULL") _
              hcs (by decide) (by decide) (by decide),
            hrec]
          simp [slotOf]
        | raw bs =>
          obtain ⟨htab, hnull, h34, h93⟩ := hvf
          have henc : encodeFieldsTail (WireField.raw bs :: g :: gs) ++ 93 :: 10 :: rest
              = bs ++ 44 :: 9 :: (encodeFieldsTail (g :: gs) ++ 93 :: 10 :: rest) := by
            simp [encodeFieldsTail, encodeField]
          rw [henc,
            advanceFields_step_raw1 ncols i s0 slots2 bs _ hcs htab h34 h93,
            hrec]
          simp [slotOf, hnull]
        | quoted s =>
          have henc : encodeFieldsTail (WireField.quoted s :: g :: gs) ++ 93 :: 10 :: rest
              = 34 :: (mapiEscape s
                ++ 34 :: 44 :: 9 :: (encodeFieldsTail (g :: gs) ++ 93 :: 10 :: rest)) := by
            simp [encodeFieldsTail, encodeField]
          rw [henc,
            advanceFields_step_quoted1 ncols i s0 slots2 s _ hcs hvf,
            hrec]
          simp [slotOf]

theorem slotOf_none_iff (fs : List WireField) (i : Nat) :
    (fs.map slotOf).get? i = some none ↔ fs.get? i = some .null := by
  induction fs generalizing i with
  | nil => simp
  | cons f fs ih =>
    cases i with
    | zero => cases f <;> simp [slotOf]
    | succ n => simpa using ih n

/-- C7: a well formed wire row with n columns parses successfully, exactly
n slots are recorded, and slot i is None exactly when source field i was
the bare unquoted token NULL (a quoted field whose decoded content is the
four characters NULL gets a non null slot via slotOf). -/
theorem c7_row_shape (fs : List WireField) (rest : List Nat)
    (hv : ∀ f ∈ fs, ValidField f) :
    (RowSet.new (encodeRow fs ++ rest) fs.length).do_advance
      = .ok (true, ⟨rest, fs.length, fs.map slotOf⟩)
    ∧ (fs.map slotOf).length = fs.length
    ∧ (∀ i, (fs.map slotOf).get? i = some none ↔ fs.get? i = some .null) := by
  refine ⟨?_, by simp, fun i => slotOf_none_iff fs i⟩
  have hadv := advanceFields_encode fs.length fs 0
    (List.replicate fs.length none) rest hv (by simp) (by simp)
  show RowSet.do_advance
      ⟨(91 :: 32 :: (encodeFieldsTail fs ++ [93, 10])) ++ rest,
        fs.length, List.replicate fs.length none⟩ = _
  have hbuf : (91 :: 32 :: (encodeFieldsTail fs ++ [93, 10])) ++ rest
      = 91 :: 32 :: (encodeFieldsTail fs ++ 93 :: 10 :: rest) := by simp
  rw [hbuf]
  simp only [RowSet.do_advance, List.drop_succ_cons, List.drop_zero, hadv]

/-- Witness for C7 on a concrete three column row: an integer token, a
NULL, and a quoted string whose content is the word NULL. -/
theorem c7_row_shape_witness :
    (RowSet.new (encodeRow [WireField.raw (strBytes "42"), WireField.null,
          WireField.quoted (strBytes "NULL")] ++ []) 3).do_advance
      = .ok (true, ⟨[], 3, [some (strBytes "42"), none, some (strBytes "NULL")]⟩)
    ∧ ([some (strBytes "42"), none, some (strBytes "NULL")]
        : List (Option (List Nat))).length = 3 := by
  have h := c7_row_shape
    [WireField.raw (strBytes "42"), WireField.null,
      WireField.quoted (strBytes "NULL")] []
    (by
      intro f hf
      fin_cases hf
      · exact ⟨by decide, by decide, by decide, by decide⟩
      · exact trivial
      · intro b hb; fin_cases hb <;> decide)
  refine ⟨?_, by decide⟩
  have h1 := h.1
  simpa using h1

/-! ### Block codec (src/framing/blockstate.rs, writing.rs, reading.rs) -/

/-- The maximum block payload size BLOCKSIZE of src/framing/mod.rs. -/
def BLOCKSIZE : Nat := 8190

/-- Mirrors struct Header: the two little endian header bytes. -/
structure Header where
  lo : Nat
  hi : Nat
deriving DecidableEq, Repr

/-- Mirrors Header::new: the u16 value 2 * size + last, split into little
endian bytes. -/
def Header.new (size : Nat) (last : Bool) : Header :=
  let n := 2 * size + (if last then 1 else 0)
  ⟨n % 256, n / 256⟩

/-- Mirrors Header::size: the u16 value divided by two. -/
def Header.size (h : Header) : Nat := (h.lo + 256 * h.hi) / 2

/-- Mirrors Header::is_last: the low bit of the first byte. -/
def Header.is_last (h : Header) : Bool := (h.lo &&& 1) != 0

/-- Mirrors Header::from_bytes: reject a size above BLOCKSIZE. -/
def Header.from_bytes (lo hi : Nat) : Except FramingError Header :=
  let h : Header := ⟨lo, hi⟩
  if h.size ≤ BLOCKSIZE then .ok h else .error .InvalidBlockSize

/-- Mirrors enum BlockState of blockstate.rs. -/
inductive BlockState where
  | Start : BlockState
  | PartialHeader : Nat → BlockState
  | Body : Nat → Bool → BlockState
  | End : BlockState
deriving DecidableEq, Repr

/-- Mirrors BlockState::new: zero remaining collapses to Start or End. -/
def BlockState.new (remaining : Nat) (last : Bool) : BlockState :=
  match remaining, last with
  | 0, false => .Start
  | 0, true => .End
  | r + 1, l => .Body (r + 1) l

/-- Mirrors BlockState::from_header. -/
def BlockState.from_header (h : Header) : BlockState :=
  BlockState.new h.size h.is_last

/-- Result of skip_headers: a payload range and a new state, a framing
error, or the panic of the End arm and of the zero remaining assert. -/
inductive SkipResult where
  | ok : Nat → Nat → BlockState → SkipResult
  | err : FramingError → SkipResult
  | panic : SkipResult
deriving DecidableEq, Repr

/-- Mirrors the loop of BlockState::skip_headers, with the position kept
as the number of bytes already consumed and the slice beyond it as a
list: an exhausted slice returns the empty range at the end; a Body
state yields the next payload range (clipped to the available bytes);
a Start state with two bytes reads a header and continues, with one
byte stores it as a partial header consuming the byte; a partial header
completes with one byte and continues; the End state panics. -/
def skipGo : BlockState → List Nat → Nat → SkipResult
  | st, [], pos => .ok pos pos st
  | .Body remaining last, l@(_ :: _), pos =>
    let avail := l.length
    if remaining > avail then
      .ok pos (pos + avail) (BlockState.new (remaining - avail) last)
    else if remaining = 0 then .panic
    else .ok pos (pos + remaining) (BlockState.new 0 last)
  | .Start, [a], pos => .ok (pos + 1) (pos + 1) (.PartialHeader a)
  | .Start, a :: b :: rest, pos =>
    match Header.from_bytes a b with
    | .error e => .err e
    | .ok hd => skipGo (BlockState.from_header hd) rest (pos + 2)
  | .PartialHeader lo, a :: rest, pos =>
    match Header.from_bytes lo a with
    | .error e => .err e
    | .ok hd => skipGo (BlockState.from_header hd) rest (pos + 1)
  | .End, _ :: _, _ => .panic

/-- Mirrors BlockState::skip_headers on a data slice. -/
def skip_headers (st : BlockState) (data : List Nat) : SkipResult :=
  skipGo st data 0

/-- The reading driver: repeatedly interpret the remaining bytes of one
chunk, collecting the payload ranges, as MapiReader and the tests of
blockstate.rs do.  Fuel bounds the number of iterations; none stands for
fuel exhaustion or a panic. -/
def deframeLoop : Nat → BlockState → List Nat →
    Option (Except FramingError (List Nat × BlockState))
  | 0, _, _ => none
  | _ + 1, st, [] => some (.ok ([], st))
  | fuel + 1, st, data =>
    match skip_headers st data with
    | .err e => some (.error e)
    | .panic => none
    | .ok rs re st2 =>
      match deframeLoop fuel st2 (data.drop re) with
      | none => none
      | some (.error e) => some (.error e)
      | some (.ok (p, stf)) => some (.ok ((data.take re).drop rs ++ p, stf))

/-- Feed a list of read chunks through the block reader in order,
concatenating the payloads. -/
def feedChunks (st : BlockState) :
    List (List Nat) → Option (Except FramingError (List Nat × BlockState))
  | [] => some (.ok ([], st))
  | c :: cs =>
    match deframeLoop (c.length + 1) st c with
    | none => none
    | some (.error e) => some (.error e)
    | some (.ok (p, st2)) =>
      match feedChunks st2 cs with
      | none => none
      | some (.error e) => some (.error e)
      | some (.ok (q, stf)) => some (.ok (p ++ q, stf))

/-- Mirrors struct MapiBuf of writing.rs: the accumulated bytes (with a
dummy header at the start of the current block) and the bytes left in
the current block. -/
structure MapiBuf where
  buffer : List Nat
  block_left : Nat
deriving DecidableEq, Repr

/-- Mirrors MapiBuf::new / with_buf: a dummy header and a full block. -/
def MapiBuf.new : MapiBuf := ⟨[255, 255], BLOCKSIZE⟩

/-- Mirrors MapiBuf::finish_block: back patch the header of the current
block, push a new dummy header and rearm the block counter. -/
def MapiBuf.finish_block (mb : MapiBuf) (endFlag : Bool) : MapiBuf :=
  let used := BLOCKSIZE - mb.block_left
  let hd := Header.new used endFlag
  let start := mb.buffer.length - used - 2
  ⟨mb.buffer.take start ++ [hd.lo, hd.hi] ++ mb.buffer.drop (start + 2)
    ++ [255, 255], BLOCKSIZE⟩

/-- The block fixing step at the top of the append_long loop. -/
def MapiBuf.fixBlock (mb : MapiBuf) : MapiBuf :=
  if mb.block_left = 0 then mb.finish_block false else mb

theorem fixBlock_block_left_pos (mb : MapiBuf) :
    1 ≤ (MapiBuf.fixBlock mb).block_left := by
  unfold MapiBuf.fixBlock
  split
  · simp [MapiBuf.finish_block, BLOCKSIZE]
  · omega

/-- Mirrors the loop of MapiBuf::append_long: finish the block when it is
full, move min(data.len(), block_left) bytes, repeat. -/
def MapiBuf.append_long (mb : MapiBuf) : List Nat → MapiBuf
  | [] => mb
  | d :: ds =>
    let mb2 := mb.fixBlock
    let n := min (d :: ds).length mb2.block_left
    MapiBuf.append_long ⟨mb2.buffer ++ (d :: ds).take n, mb2.block_left - n⟩
      ((d :: ds).drop n)
termination_by data => data.length
decreasing_by
  have hpos := fixBlock_block_left_pos mb
  simp only [List.length_drop]
  simp only [List.length_cons]
  omega

/-- Mirrors MapiBuf::append: the happy path extends the current block,
otherwise append_long runs. -/
def MapiBuf.append (mb : MapiBuf) (data : List Nat) : MapiBuf :=
  if data.length ≤ mb.block_left then
    ⟨mb.buffer ++ data, mb.block_left - data.length⟩
  else mb.append_long data

/-- Append a list of write chunks in order. -/
def MapiBuf.appendAll (mb : MapiBuf) : List (List Nat) → MapiBuf
  | [] => mb
  | c :: cs => MapiBuf.appendAll (mb.append c) cs

/-- Mirrors MapiBuf::reset: the frame ready bytes (without the trailing
dummy header when the current block is untouched) and the rearmed
buffer. -/
def MapiBuf.reset (mb : MapiBuf) : List Nat × MapiBuf :=
  let raw_len :=
    if mb.block_left = BLOCKSIZE then mb.buffer.length - 2 else mb.buffer.length
  (mb.buffer.take raw_len, ⟨mb.buffer.take 2, BLOCKSIZE⟩)

/-- Mirrors MapiBuf::end_reset: close the message with a last block and
return the frame ready bytes. -/
def MapiBuf.end_reset (mb : MapiBuf) : List Nat × MapiBuf :=
  (mb.finish_block true).reset

/-! ### Byte level reading semantics, used to relate chunked reads -/

/-- One byte through the block reader: Start stores a partial header, a
partial header completes and dispatches, a body byte is payload, End and
a zero body are stuck. -/
def byteStep (st : BlockState) (b : Nat) : Option (List Nat × BlockState) :=
  match st with
  | .Start => some ([], .PartialHeader b)
  | .PartialHeader lo =>
    match Header.from_bytes lo b with
    | .error _ => none
    | .ok hd => some ([], BlockState.from_header hd)
  | .Body r l => if r = 0 then none else some ([b], BlockState.new (r - 1) l)
  | .End => none

/-- Fold byteStep over a byte list, collecting the payload. -/
def runBytes (st : BlockState) : List Nat → Option (List Nat × BlockState)
  | [] => some ([], st)
  | b :: rest =>
    match byteStep st b with
    | none => none
    | some (p, st2) =>
      match runBytes st2 rest with
      | none => none
      | some (q, stf) => some (p ++ q, stf)

theorem runBytes_append (a b : List Nat) (st : BlockState) :
    runBytes st (a ++ b)
      = match runBytes st a with
        | none => none
        | some (p, st2) =>
          match runBytes st2 b with
          | none => none
          | some (q, stf) => some (p ++ q, stf) := by
  induction a generalizing st with
  | nil =>
    simp only [List.nil_append, runBytes]
    cases hb : runBytes st b with
    | none => simp
    | some r => cases r with | mk q stf => simp
  | cons x xs ih =>
    rw [List.cons_append, runBytes, runBytes]
    cases hs : byteStep st x with
    | none => simp
    | some r =>
      cases r with
      | mk p st2 =>
        dsimp only
        rw [ih st2]
        cases h2 : runBytes st2 xs with
        | none => simp
        | some r2 =>
          cases r2 with
          | mk q st3 =>
            cases h3 : runBytes st3 b with
            | none => simp [h3]
            | some r3 =>
              cases r3 with
              | mk u st4 => simp [h3, List.append_assoc]

theorem BlockState.new_pos (r : Nat) (l : Bool) (h : 1 ≤ r) :
    BlockState.new r l = .Body r l := by
  cases r with
  | zero => omega
  | succ k => cases l <;> rfl

theorem runBytes_body_partial (x : List Nat) (r : Nat) (l : Bool)
    (h : x.length < r) :
    runBytes (.Body r l) x = some (x, .Body (r - x.length) l) := by
  induction x generalizing r with
  | nil => simp [runBytes]
  | cons d ds ih =>
    have hr : ¬ r = 0 := by simp at h; omega
    have hlt : ds.length < r - 1 := by simp at h; omega
    have hnew : BlockState.new (r - 1) l = .Body (r - 1) l :=
      BlockState.new_pos (r - 1) l (by omega)
    simp only [runBytes, byteStep, if_neg hr, hnew, ih (r - 1) hlt]
    simp only [List.length_cons]
    have : r - 1 - ds.length = r - (ds.length + 1) := by omega
    simp [this]

theorem runBytes_body_exact (x : List Nat) (l : Bool) (y : List Nat)
    (hx : x ≠ []) :
    runBytes (.Body x.length l) (x ++ y)
      = match runBytes (BlockState.new 0 l) y with
        | none => none
        | some (q, stf) => some (x ++ q, stf) := by
  induction x with
  | nil => exact absurd rfl hx
  | cons d ds ih =>
    cases ds with
    | nil =>
      rw [List.cons_append, List.nil_append, runBytes]
      simp only [byteStep, List.length_cons, List.length_nil]
      norm_num
    | cons e es =>
      have hne : ¬ (d :: e :: es).length = 0 := by simp
      have hnew : BlockState.new ((d :: e :: es).length - 1) l
          = .Body ((e :: es).length) l := by
        have h1 : (d :: e :: es).length - 1 = (e :: es).length := by simp
        rw [h1]
        exact BlockState.new_pos _ l (by simp)
      rw [List.cons_append, runBytes]
      simp only [byteStep, if_neg hne, hnew]
      rw [ih (by simp)]
      cases hy : runBytes (BlockState.new 0 l) y with
      | none => simp
      | some r => cases r with | mk q stf => simp

/-- Range shift for skip results, used to relate the loop at different
positions. -/
def SkipResult.shiftBy (k : Nat) : SkipResult → SkipResult
  | .ok rs re st => .ok (rs + k) (re + k) st
  | r => r

theorem shiftBy_shiftBy (a b : Nat) (r : SkipResult) :
    (r.shiftBy b).shiftBy a = r.shiftBy (b + a) := by
  cases r <;> simp [SkipResult.shiftBy, Nat.add_assoc]

theorem skipGo_shift_n :
    ∀ (n : Nat) (data : List Nat) (st : BlockState) (k : Nat),
      data.length ≤ n → skipGo st data k = (skipGo st data 0).shiftBy k := by
  intro n
  induction n with
  | zero =>
    intro data st k hlen
    have : data = [] := List.eq_nil_of_length_eq_zero (by omega)
    subst this
    simp [skipGo, SkipResult.shiftBy]
  | succ n ih =>
    intro data st k hlen
    cases data with
    | nil => simp [skipGo, SkipResult.shiftBy]
    | cons d ds =>
      cases st with
      | End => simp [skipGo, SkipResult.shiftBy]
      | Body r l =>
        simp only [skipGo]
        split_ifs <;> simp [SkipResult.shiftBy, Nat.add_comm]
      | Start =>
        cases ds with
        | nil => simp [skipGo, SkipResult.shiftBy, Nat.add_comm]
        | cons b rest =>
          simp only [skipGo]
          cases hfb : Header.from_bytes d b with
          | error e => simp [SkipResult.shiftBy]
          | ok hd =>
            dsimp only
            simp only [Nat.zero_add]
            have h1 := ih rest (BlockState.from_header hd) (k + 2) (by simp at hlen; omega)
            have h2 := ih rest (BlockState.from_header hd) 2 (by simp at hlen; omega)
            rw [h1, h2, shiftBy_shiftBy]
            have : 2 + k = k + 2 := by omega
            rw [this]
      | PartialHeader lo =>
        simp only [skipGo]
        cases hfb : Header.from_bytes lo d with
        | error e => simp [SkipResult.shiftBy]
        | ok hd =>
          dsimp only
          simp only [Nat.zero_add]
          have h1 := ih ds (BlockState.from_header hd) (k + 1) (by simp at hlen; omega)
          have h2 := ih ds (BlockState.from_header hd) 1 (by simp at hlen; omega)
          rw [h1, h2, shiftBy_shiftBy]
          have : 1 + k = k + 1 := by omega
          rw [this]

theorem runBytes_start_two (a b : Nat) (rest : List Nat) (hd : Header)
    (hfb : Header.from_bytes a b = .ok hd) :
    runBytes .Start (a :: b :: rest)
      = runBytes (BlockState.from_header hd) rest := by
  rw [runBytes]
  simp only [byteStep]
  rw [runBytes]
  simp only [byteStep, hfb]
  cases hr : runBytes (BlockState.from_header hd) rest with
  | none => simp
  | some r => cases r with | mk q stf => simp

theorem runBytes_partial_one (lo a : Nat) (rest : List Nat) (hd : Header)
    (hfb : Header.from_bytes lo a = .ok hd) :
    runBytes (.PartialHeader lo) (a :: rest)
      = runBytes (BlockState.from_header hd) rest := by
  rw [runBytes]
  simp only [byteStep, hfb]
  cases hr : runBytes (BlockState.from_header hd) rest with
  | none => simp
  | some r => cases r with | mk q stf => simp

/-- One skip_headers step agrees with the byte level run: on a nonempty
chunk whose byte level run succeeds, skip_headers yields a payload range
that consumes at least one byte, and the byte level run continues from
the new state on the remaining bytes. -/
theorem skipGo_runBytes :
    ∀ (n : Nat) (data : List Nat) (st : BlockState) (p : List Nat)
      (stf : BlockState), data.length ≤ n → data ≠ [] →
      runBytes st data = some (p, stf) →
      ∃ rs re st2 q, skipGo st data 0 = .ok rs re st2 ∧ 1 ≤ re ∧
        re ≤ data.length ∧ p = (data.take re).drop rs ++ q ∧
        runBytes st2 (data.drop re) = some (q, stf) := by
  intro n
  induction n with
  | zero =>
    intro data st p stf hlen hne _
    cases data with
    | nil => exact absurd rfl hne
    | cons d ds => simp at hlen
  | succ n ih =>
    intro data st p stf hlen hne hrun
    cases data with
    | nil => exact absurd rfl hne
    | cons d ds =>
      cases st with
      | End => simp [runBytes, byteStep] at hrun
      | Body r l =>
        have hr0 : ¬ r = 0 := by
          intro h0
          subst h0
          simp [runBytes, byteStep] at hrun
        by_cases hgt : r > (d :: ds).length
        · have hpart := runBytes_body_partial (d :: ds) r l (by omega)
          rw [hpart] at hrun
          simp only [Option.some.injEq, Prod.mk.injEq] at hrun
          obtain ⟨hp, hstf⟩ := hrun
          refine ⟨0, (d :: ds).length, BlockState.new (r - (d :: ds).length) l,
            [], ?_, by simp, le_refl _, ?_, ?_⟩
          · simp only [skipGo]
            rw [if_pos hgt]
            simp
          · simp [← hp]
          · rw [List.drop_length]
            rw [BlockState.new_pos _ l (by omega), hstf]
            rfl
        · have hr1 : 1 ≤ r := by omega
          have hrlen : r ≤ (d :: ds).length := by omega
          have hxy : (d :: ds).take r ++ (d :: ds).drop r = d :: ds :=
            List.take_append_drop r (d :: ds)
          have hxlen : ((d :: ds).take r).length = r := by
            simp only [List.length_take]
            omega
          have hxne : (d :: ds).take r ≠ [] := by
            intro h
            rw [h] at hxlen
            simp at hxlen
            omega
          have hbe := runBytes_body_exact ((d :: ds).take r) l ((d :: ds).drop r) hxne
          rw [hxlen, hxy] at hbe
          rw [hbe] at hrun
          cases hy : runBytes (BlockState.new 0 l) ((d :: ds).drop r) with
          | none => rw [hy] at hrun; simp at hrun
          | some r2 =>
            cases r2 with
            | mk q stf2 =>
              rw [hy] at hrun
              simp only [Option.some.injEq, Prod.mk.injEq] at hrun
              obtain ⟨hp, hstf⟩ := hrun
              refine ⟨0, r, BlockState.new 0 l, q, ?_, hr1, hrlen, ?_, ?_⟩
              · simp only [skipGo]
                rw [if_neg hgt, if_neg hr0]
                simp
              · simp [← hp]
              · rw [hy, hstf]
      | Start =>
        cases ds with
        | nil =>
          simp only [runBytes, byteStep] at hrun
          simp only [Option.some.injEq, Prod.mk.injEq] at hrun
          obtain ⟨hp, hstf⟩ := hrun
          refine ⟨1, 1, .PartialHeader d, [], by simp [skipGo], le_refl _,
            by simp, by simp [← hp], ?_⟩
          rw [List.drop_one, List.tail_cons]
          rw [← hstf]
          rfl
        | cons b rest =>
          cases hfb : Header.from_bytes d b with
          | error e =>
            rw [runBytes] at hrun
            simp only [byteStep] at hrun
            rw [runBytes] at hrun
            simp [byteStep, hfb] at hrun
          | ok hd =>
            have hrun2 : runBytes (BlockState.from_header hd) rest
                = some (p, stf) := by
              rw [← runBytes_start_two d b rest hd hfb]
              exact hrun
            cases rest with
            | nil =>
              simp only [runBytes] at hrun2
              simp only [Option.some.injEq, Prod.mk.injEq] at hrun2
              obtain ⟨hp, hstf⟩ := hrun2
              refine ⟨2, 2, BlockState.from_header hd, [], ?_, by omega,
                by simp, by simp [← hp], ?_⟩
              · simp [skipGo, hfb]
              · simp [← hp, ← hstf]
                rfl
            | cons c rest2 =>
              obtain ⟨rs, re, st2, q, hskip, hre1, hrelen, hp, hcont⟩ :=
                ih (c :: rest2) (BlockState.from_header hd) p stf
                  (by simp at hlen ⊢; omega) (by simp) hrun2
              refine ⟨rs + 2, re + 2, st2, q, ?_, by omega, by simp at hrelen ⊢; omega,
                ?_, ?_⟩
              · have hs1 : skipGo .Start (d :: b :: c :: rest2) 0
                    = skipGo (BlockState.from_header hd) (c :: rest2) 2 := by
                  simp [skipGo, hfb]
                rw [hs1, skipGo_shift_n (c :: rest2).length (c :: rest2)
                  (BlockState.from_header hd) 2 (le_refl _), hskip]
                simp [SkipResult.shiftBy]
              · rw [hp]
                have ht : (d :: b :: c :: rest2).take (re + 2)
                    = d :: b :: (c :: rest2).take re := by
                  simp [List.take_succ_cons]
                rw [ht]
                simp [List.drop_succ_cons]
              · have hd2 : (d :: b :: c :: rest2).drop (re + 2)
                    = (c :: rest2).drop re := by
                  simp [List.drop_succ_cons]
                rw [hd2]
                exact hcont
      | PartialHeader lo =>
        cases hfb : Header.from_bytes lo d with
        | error e =>
          rw [runBytes] at hrun
          simp [byteStep, hfb] at hrun
        | ok hd =>
          have hrun2 : runBytes (BlockState.from_header hd) ds
              = some (p, stf) := by
            rw [← runBytes_partial_one lo d ds hd hfb]
            exact hrun
          cases ds with
          | nil =>
            simp only [runBytes] at hrun2
            simp only [Option.some.injEq, Prod.mk.injEq] at hrun2
            obtain ⟨hp, hstf⟩ := hrun2
            refine ⟨1, 1, BlockState.from_header hd, [], ?_, le_refl _,
              by simp, by simp [← hp], ?_⟩
            · simp [skipGo, hfb]
            · simp [← hp, ← hstf]
              rfl
          | cons c rest2 =>
            obtain ⟨rs, re, st2, q, hskip, hre1, hrelen, hp, hcont⟩ :=
              ih (c :: rest2) (BlockState.from_header hd) p stf
                (by simp at hlen ⊢; omega) (by simp) hrun2
            refine ⟨rs + 1, re + 1, st2, q, ?_, by omega, by simp at hrelen ⊢; omega,
              ?_, ?_⟩
            · have hs1 : skipGo (.PartialHeader lo) (d :: c :: rest2) 0
                  = skipGo (BlockState.from_header hd) (c :: rest2) 1 := by
                simp [skipGo, hfb]
              rw [hs1, skipGo_shift_n (c :: rest2).length (c :: rest2)
                (BlockState.from_header hd) 1 (le_refl _), hskip]
              simp [SkipResult.shiftBy]
            · rw [hp]
              have ht : (d :: c :: rest2).take (re + 1)
                  = d :: (c :: rest2).take re := by
                simp [List.take_succ_cons]
              rw [ht]
              simp [List.drop_succ_cons]
            · have hd2 : (d :: c :: rest2).drop (re + 1) = (c :: rest2).drop re := by
                simp [List.drop_succ_cons]
              rw [hd2]
              exact hcont

/-- The reading driver consumes a whole chunk whenever the byte level
run succeeds on it, and delivers the same payload and state. -/
theorem deframeLoop_runBytes :
    ∀ (fuel : Nat) (data : List Nat) (st : BlockState) (p : List Nat)
      (stf : BlockState), data.length < fuel →
      runBytes st data = some (p, stf) →
      deframeLoop fuel st data = some (.ok (p, stf)) := by
  intro fuel
  induction fuel with
  | zero => intro data st p stf hlen; exact absurd hlen (by omega)
  | succ fuel ih =>
    intro data st p stf hlen hrun
    cases data with
    | nil =>
      simp only [runBytes, Option.some.injEq, Prod.mk.injEq] at hrun
      obtain ⟨hp, hstf⟩ := hrun
      simp [deframeLoop, ← hp, ← hstf]
    | cons d ds =>
      obtain ⟨rs, re, st2, q, hskip, hre1, hrelen, hp, hcont⟩ :=
        skipGo_runBytes (d :: ds).length (d :: ds) st p stf (le_refl _)
          (by simp) hrun
      have hih := ih ((d :: ds).drop re) st2 q stf
        (by simp at hlen ⊢; omega) hcont
      simp only [deframeLoop, skip_headers, hskip, hih]
      rw [hp]

/-- Feeding any sequence of read chunks reproduces the byte level run on
their concatenation. -/
theorem feedChunks_runBytes :
    ∀ (cs : List (List Nat)) (st : BlockState) (p : List Nat)
      (stf : BlockState), runBytes st cs.flatten = some (p, stf) →
      feedChunks st cs = some (.ok (p, stf)) := by
  intro cs
  induction cs with
  | nil =>
    intro st p stf hrun
    simp only [List.flatten_nil, runBytes, Option.some.injEq,
      Prod.mk.injEq] at hrun
    obtain ⟨hp, hstf⟩ := hrun
    simp [feedChunks, ← hp, ← hstf]
  | cons c cs ih =>
    intro st p stf hrun
    rw [List.flatten_cons, runBytes_append] at hrun
    cases h1 : runBytes st c with
    | none => rw [h1] at hrun; simp at hrun
    | some r1 =>
      cases r1 with
      | mk p1 st2 =>
        rw [h1] at hrun
        dsimp only at hrun
        cases h2 : runBytes st2 cs.flatten with
        | none => rw [h2] at hrun; simp at hrun
        | some r2 =>
          cases r2 with
          | mk p2 stf2 =>
            rw [h2] at hrun
            simp only [Option.some.injEq, Prod.mk.injEq] at hrun
            obtain ⟨hp, hstf⟩ := hrun
            rw [hstf] at h2
            have hd1 := deframeLoop_runBytes (c.length + 1) c st p1 st2
              (by omega) h1
            have hih := ih st2 p2 stf h2
            simp only [feedChunks, hd1, hih]
            rw [hp]

theorem Header.new_size (s : Nat) (l : Bool) : (Header.new s l).size = s := by
  cases l
  · show ((2 * s + 0) % 256 + 256 * ((2 * s + 0) / 256)) / 2 = s
    omega
  · show ((2 * s + 1) % 256 + 256 * ((2 * s + 1) / 256)) / 2 = s
    omega

theorem Header.new_is_last (s : Nat) (l : Bool) :
    (Header.new s l).is_last = l := by
  cases l
  · show ((2 * s + 0) % 256 &&& 1 != 0) = false
    rw [Nat.and_one_is_mod]
    have h : (2 * s + 0) % 256 % 2 = 0 := by omega
    rw [h]
    rfl
  · show ((2 * s + 1) % 256 &&& 1 != 0) = true
    rw [Nat.and_one_is_mod]
    have h : (2 * s + 1) % 256 % 2 = 1 := by omega
    rw [h]
    rfl

theorem Header.from_bytes_new (s : Nat) (l : Bool) (hle : s ≤ BLOCKSIZE) :
    Header.from_bytes (Header.new s l).lo (Header.new s l).hi
      = .ok (Header.new s l) := by
  show (if (Header.new s l).size ≤ BLOCKSIZE then
      Except.ok (Header.new s l)
    else Except.error FramingError.InvalidBlockSize) = Except.ok (Header.new s l)
  rw [if_pos (by rw [Header.new_size]; exact hle)]

theorem BlockState.from_header_new (s : Nat) (l : Bool) :
    BlockState.from_header (Header.new s l) = BlockState.new s l := by
  unfold BlockState.from_header
  rw [Header.new_size, Header.new_is_last]

/-- The MAPI frame of a message: full non last blocks of BLOCKSIZE bytes
followed by one last block with whatever remains, each preceded by its
two byte little endian header. -/
def frame (m : List Nat) : List Nat :=
  if _h : m.length ≤ BLOCKSIZE then
    (Header.new m.length true).lo :: (Header.new m.length true).hi :: m
  else
    (Header.new BLOCKSIZE false).lo :: (Header.new BLOCKSIZE false).hi ::
      (m.take BLOCKSIZE ++ frame (m.drop BLOCKSIZE))
termination_by m.length
decreasing_by
  have hB : 0 < BLOCKSIZE := by decide
  simp only [List.length_drop]
  omega

/-- The byte level reader recovers the message from its frame and ends in
the end-of-message state. -/
theorem runBytes_frame :
    ∀ (n : Nat) (m : List Nat), m.length ≤ n →
      runBytes .Start (frame m) = some (m, .End) := by
  intro n
  induction n with
  | zero =>
    intro m hlen
    have hm : m = [] := List.eq_nil_of_length_eq_zero (by omega)
    subst hm
    rw [frame, dif_pos (by decide)]
    decide
  | succ n ih =>
    intro m hlen
    by_cases hle : m.length ≤ BLOCKSIZE
    · rw [frame, dif_pos hle]
      rw [runBytes_start_two _ _ _ _ (Header.from_bytes_new m.length true hle)]
      rw [BlockState.from_header_new]
      cases m with
      | nil => decide
      | cons a as =>
        rw [BlockState.new_pos _ _ (by simp)]
        have hbe := runBytes_body_exact (a :: as) true [] (by simp)
        rw [List.append_nil] at hbe
        rw [hbe]
        have h0 : runBytes (BlockState.new 0 true) [] = some ([], .End) := rfl
        rw [h0]
        simp
    · rw [frame, dif_neg hle]
      rw [runBytes_start_two _ _ _ _
        (Header.from_bytes_new BLOCKSIZE false (le_refl _))]
      rw [BlockState.from_header_new]
      rw [BlockState.new_pos _ _ (by decide)]
      have hxlen : (m.take BLOCKSIZE).length = BLOCKSIZE := by
        simp only [List.length_take]
        omega
      have hxne : m.take BLOCKSIZE ≠ [] := by
        intro h0
        rw [h0] at hxlen
        have hB : 0 < BLOCKSIZE := by decide
        simp at hxlen
        omega
      have hbe := runBytes_body_exact (m.take BLOCKSIZE) false
        (frame (m.drop BLOCKSIZE)) hxne
      rw [hxlen] at hbe
      rw [hbe]
      have hB : 1 ≤ BLOCKSIZE := by decide
      have hih := ih (m.drop BLOCKSIZE)
        (by simp only [List.length_drop]; omega)
      have h0 : BlockState.new 0 false = .Start := rfl
      rw [h0, hih]
      dsimp only
      rw [List.take_append_drop]

/-- One byte through the writer: finish the block if it is full, then
extend the current block, as one iteration of the append_long loop
moving a single byte. -/
def MapiBuf.push1 (mb : MapiBuf) (b : Nat) : MapiBuf :=
  let mb2 := mb.fixBlock
  ⟨mb2.buffer ++ [b], mb2.block_left - 1⟩

/-- Write a byte list one byte at a time. -/
def MapiBuf.pushBytes (mb : MapiBuf) (data : List Nat) : MapiBuf :=
  data.foldl MapiBuf.push1 mb

theorem pushBytes_cons (mb : MapiBuf) (d : Nat) (ds : List Nat) :
    mb.pushBytes (d :: ds) = (mb.push1 d).pushBytes ds := rfl

theorem pushBytes_append2 (mb : MapiBuf) (a b : List Nat) :
    mb.pushBytes (a ++ b) = (mb.pushBytes a).pushBytes b := by
  simp [MapiBuf.pushBytes, List.foldl_append]

theorem fixBlock_idem (mb : MapiBuf) : mb.fixBlock.fixBlock = mb.fixBlock := by
  have h := fixBlock_block_left_pos mb
  rw [MapiBuf.fixBlock]
  rw [if_neg (by omega)]

theorem push1_pos (mb : MapiBuf) (d : Nat) (h : ¬ mb.block_left = 0) :
    mb.push1 d = ⟨mb.buffer ++ [d], mb.block_left - 1⟩ := by
  unfold MapiBuf.push1 MapiBuf.fixBlock
  rw [if_neg h]

theorem pushBytes_fits :
    ∀ (data : List Nat) (mb : MapiBuf), data.length ≤ mb.block_left →
      mb.pushBytes data = ⟨mb.buffer ++ data, mb.block_left - data.length⟩ := by
  intro data
  induction data with
  | nil =>
    intro mb _
    cases mb
    simp [MapiBuf.pushBytes]
  | cons d ds ih =>
    intro mb hlen
    have hbl : ¬ mb.block_left = 0 := by simp at hlen; omega
    rw [pushBytes_cons, push1_pos mb d hbl]
    rw [ih ⟨mb.buffer ++ [d], mb.block_left - 1⟩ (by simp at hlen ⊢; omega)]
    simp only [MapiBuf.mk.injEq]
    constructor
    · simp
    · simp
      omega

theorem append_long_eq_pushBytes :
    ∀ (n : Nat) (data : List Nat) (mb : MapiBuf), data.length ≤ n →
      mb.append_long data = mb.pushBytes data := by
  intro n
  induction n with
  | zero =>
    intro data mb hlen
    have hd : data = [] := List.eq_nil_of_length_eq_zero (by omega)
    subst hd
    rw [MapiBuf.append_long]
    rfl
  | succ n ih =>
    intro data mb hlen
    cases data with
    | nil =>
      rw [MapiBuf.append_long]
      rfl
    | cons d ds =>
      rw [MapiBuf.append_long]
      set mb2 := mb.fixBlock with hmb2
      set n0 := min (d :: ds).length mb2.block_left with hn0
      have hbl2 : 1 ≤ mb2.block_left := fixBlock_block_left_pos mb
      have hl1 : 1 ≤ (d :: ds).length := by simp
      have hn0pos : 1 ≤ n0 := by omega
      have hn0le : n0 ≤ mb2.block_left := by omega
      have hn0len : n0 ≤ (d :: ds).length := by omega
      have htlen : ((d :: ds).take n0).length = n0 := by
        simp only [List.length_take]
        omega
      have hih := ih ((d :: ds).drop n0)
        ⟨mb2.buffer ++ (d :: ds).take n0, mb2.block_left - n0⟩
        (by simp only [List.length_drop]; simp only [List.length_cons] at hlen ⊢; omega)
      rw [hih]
      have hfits := pushBytes_fits ((d :: ds).take n0) mb2
        (by rw [htlen]; exact hn0le)
      rw [htlen] at hfits
      have hstep : mb.pushBytes (d :: ds) = mb2.pushBytes (d :: ds) := by
        rw [pushBytes_cons, pushBytes_cons]
        have hp : mb.push1 d = mb2.push1 d := by
          show (⟨mb.fixBlock.buffer ++ [d], mb.fixBlock.block_left - 1⟩ : MapiBuf)
            = ⟨mb2.fixBlock.buffer ++ [d], mb2.fixBlock.block_left - 1⟩
          rw [hmb2, fixBlock_idem]
        rw [hp]
      rw [hstep]
      conv_rhs => rw [← List.take_append_drop n0 (d :: ds)]
      rw [pushBytes_append2, hfits]

theorem append_eq_pushBytes (mb : MapiBuf) (data : List Nat) :
    mb.append data = mb.pushBytes data := by
  by_cases h : data.length ≤ mb.block_left
  · rw [MapiBuf.append, if_pos h, pushBytes_fits data mb h]
  · rw [MapiBuf.append, if_neg h]
    exact append_long_eq_pushBytes data.length data mb (le_refl _)

theorem appendAll_eq_pushBytes :
    ∀ (cs : List (List Nat)) (mb : MapiBuf),
      MapiBuf.appendAll mb cs = mb.pushBytes cs.flatten := by
  intro cs
  induction cs with
  | nil => intro mb; rfl
  | cons c cs ih =>
    intro mb
    rw [MapiBuf.appendAll, ih (mb.append c), append_eq_pushBytes,
      List.flatten_cons, pushBytes_append2]

theorem take_append_extra (x y : List Nat) (k : Nat) :
    (x ++ y).take (x.length + k) = x ++ y.take k := by
  induction x with
  | nil => simp
  | cons a x ih => simp [Nat.succ_add, ih]

/-- Writing one byte into a full block finishes the block: the dummy
header slot is back patched with a non last header for a full block, a
fresh dummy is pushed and the byte starts the next block. -/
theorem push1_full (mb : MapiBuf) (P cur : List Nat) (u v d : Nat)
    (hbuf : mb.buffer = P ++ u :: v :: cur)
    (hbl : mb.block_left = 0)
    (hcur : cur.length = BLOCKSIZE) :
    mb.push1 d = ⟨(P ++ (Header.new BLOCKSIZE false).lo ::
        (Header.new BLOCKSIZE false).hi :: cur) ++ 255 :: 255 :: [d],
      BLOCKSIZE - 1⟩ := by
  unfold MapiBuf.push1 MapiBuf.fixBlock
  rw [if_pos hbl]
  unfold MapiBuf.finish_block
  rw [hbuf, hbl]
  dsimp only
  simp only [Nat.sub_zero, MapiBuf.mk.injEq]
  refine ⟨?_, trivial⟩
  have hstart : (P ++ u :: v :: cur).length - BLOCKSIZE - 2 = P.length := by
    simp only [List.length_append, List.length_cons, hcur]
    omega
  rw [hstart]
  rw [take_append_self, drop_append_extra]
  rw [show List.drop 2 (u :: v :: cur) = cur from rfl]
  simp

/-- Any state reached from a dummy headed state keeps the shape of
finished blocks followed by a dummy header and the current block. -/
theorem pushBytes_shape :
    ∀ (data : List Nat) (mb : MapiBuf) (A cur : List Nat),
      mb.buffer = A ++ 255 :: 255 :: cur →
      cur.length + mb.block_left = BLOCKSIZE →
      ∃ A2 cur2, (mb.pushBytes data).buffer = A2 ++ 255 :: 255 :: cur2 ∧
        cur2.length + (mb.pushBytes data).block_left = BLOCKSIZE := by
  intro data
  induction data with
  | nil => intro mb A cur hbuf hinv; exact ⟨A, cur, hbuf, hinv⟩
  | cons d ds ih =>
    intro mb A cur hbuf hinv
    rw [pushBytes_cons]
    by_cases hbl : mb.block_left = 0
    · have hcur : cur.length = BLOCKSIZE := by omega
      rw [push1_full mb A cur 255 255 d hbuf hbl hcur]
      apply ih _ (A ++ (Header.new BLOCKSIZE false).lo ::
          (Header.new BLOCKSIZE false).hi :: cur) [d] rfl
      have h1 : 1 ≤ BLOCKSIZE := by decide
      show ([d] : List Nat).length + (BLOCKSIZE - 1) = BLOCKSIZE
      simp only [List.length_cons, List.length_nil]
      omega
    · rw [push1_pos mb d hbl]
      exact ih _ A (cur ++ [d])
        (by dsimp only; rw [hbuf]; simp)
        (by dsimp only; simp; omega)

/-- Writing commutes with an already finished prefix of the buffer. -/
theorem pushBytes_front :
    ∀ (data P : List Nat) (u v : Nat) (cur : List Nat) (bl : Nat),
      cur.length + bl = BLOCKSIZE →
      MapiBuf.pushBytes ⟨P ++ u :: v :: cur, bl⟩ data
        = ⟨P ++ (MapiBuf.pushBytes ⟨u :: v :: cur, bl⟩ data).buffer,
           (MapiBuf.pushBytes ⟨u :: v :: cur, bl⟩ data).block_left⟩ := by
  intro data
  induction data with
  | nil => intro P u v cur bl hinv; rfl
  | cons d ds ih =>
    intro P u v cur bl hinv
    rw [pushBytes_cons, pushBytes_cons]
    by_cases hbl : bl = 0
    · subst hbl
      have hcur : cur.length = BLOCKSIZE := by omega
      rw [push1_full ⟨P ++ u :: v :: cur, 0⟩ P cur u v d rfl rfl hcur,
          push1_full ⟨u :: v :: cur, 0⟩ [] cur u v d (by simp) rfl hcur]
      simp only [List.nil_append]
      have hinv2 : ([d] : List Nat).length + (BLOCKSIZE - 1) = BLOCKSIZE := by
        have h1 : 1 ≤ BLOCKSIZE := by decide
        simp
        omega
      rw [ih (P ++ (Header.new BLOCKSIZE false).lo ::
            (Header.new BLOCKSIZE false).hi :: cur) 255 255 [d]
            (BLOCKSIZE - 1) hinv2,
          ih ((Header.new BLOCKSIZE false).lo ::
            (Header.new BLOCKSIZE false).hi :: cur) 255 255 [d]
            (BLOCKSIZE - 1) hinv2]
      simp [List.append_assoc]
    · rw [push1_pos ⟨P ++ u :: v :: cur, bl⟩ d hbl,
          push1_pos ⟨u :: v :: cur, bl⟩ d hbl]
      dsimp only
      have h1 : (P ++ u :: v :: cur) ++ [d] = P ++ u :: v :: (cur ++ [d]) := by
        simp
      have h2 : (u :: v :: cur) ++ [d] = u :: v :: (cur ++ [d]) := by simp
      rw [h1, h2]
      exact ih P u v (cur ++ [d]) (bl - 1) (by simp; omega)

/-- Closing the message finishes the current block with the last flag
and returns everything up to (and without) the trailing dummy header. -/
theorem end_reset_spec (mb : MapiBuf) (A cur : List Nat) (u v : Nat)
    (hbuf : mb.buffer = A ++ u :: v :: cur)
    (hinv : cur.length + mb.block_left = BLOCKSIZE) :
    (MapiBuf.end_reset mb).1
      = A ++ (Header.new cur.length true).lo ::
          (Header.new cur.length true).hi :: cur := by
  unfold MapiBuf.end_reset MapiBuf.reset MapiBuf.finish_block
  rw [hbuf]
  dsimp only
  have hused : BLOCKSIZE - mb.block_left = cur.length := by omega
  rw [hused]
  have hstart : (A ++ u :: v :: cur).length - cur.length - 2 = A.length := by
    simp only [List.length_append, List.length_cons]
    omega
  rw [hstart]
  rw [take_append_self, drop_append_extra]
  rw [show List.drop 2 (u :: v :: cur) = cur from rfl]
  rw [if_pos rfl]
  have hre : A ++ [(Header.new cur.length true).lo,
        (Header.new cur.length true).hi] ++ cur ++ [255, 255]
      = (A ++ (Header.new cur.length true).lo ::
          (Header.new cur.length true).hi :: cur) ++ [255, 255] := by
    simp
  rw [hre]
  have hlen2 : ((A ++ (Header.new cur.length true).lo ::
        (Header.new cur.length true).hi :: cur) ++ [255, 255]).length - 2
      = (A ++ (Header.new cur.length true).lo ::
          (Header.new cur.length true).hi :: cur).length := by
    simp
    omega
  rw [hlen2, take_append_self]

/-- Writing a message byte by byte into a fresh buffer and closing the
message produces exactly its MAPI frame. -/
theorem end_reset_pushBytes :
    ∀ (n : Nat) (m : List Nat), m.length ≤ n →
      (MapiBuf.pushBytes MapiBuf.new m).end_reset.1 = frame m := by
  intro n
  induction n with
  | zero =>
    intro m hlen
    have hm : m = [] := List.eq_nil_of_length_eq_zero (by omega)
    subst hm
    rw [frame, dif_pos (by decide)]
    decide
  | succ n ih =>
    intro m hlen
    by_cases hle : m.length ≤ BLOCKSIZE
    · rw [frame, dif_pos hle]
      rw [pushBytes_fits m MapiBuf.new hle]
      rw [end_reset_spec
        ⟨MapiBuf.new.buffer ++ m, MapiBuf.new.block_left - m.length⟩
        [] m 255 255 rfl
        (by show m.length + (BLOCKSIZE - m.length) = BLOCKSIZE; omega)]
      simp
    · rw [frame, dif_neg hle]
      have hxlen : (m.take BLOCKSIZE).length = BLOCKSIZE := by
        simp only [List.length_take]
        omega
      cases hy : m.drop BLOCKSIZE with
      | nil =>
        exfalso
        have hylen := congrArg List.length hy
        simp only [List.length_drop, List.length_nil] at hylen
        omega
      | cons d ys =>
        have hsplit : MapiBuf.pushBytes MapiBuf.new m
            = MapiBuf.pushBytes
                (MapiBuf.pushBytes MapiBuf.new (m.take BLOCKSIZE)) (d :: ys) := by
          rw [← hy, ← pushBytes_append2, List.take_append_drop]
        have hx2 : MapiBuf.pushBytes MapiBuf.new (m.take BLOCKSIZE)
            = ⟨255 :: 255 :: m.take BLOCKSIZE, 0⟩ := by
          rw [pushBytes_fits _ _ (by rw [hxlen]; exact le_refl _)]
          simp only [MapiBuf.mk.injEq]
          constructor
          · simp [MapiBuf.new]
          · rw [hxlen]
            show BLOCKSIZE - BLOCKSIZE = 0
            omega
        rw [hsplit, hx2, pushBytes_cons]
        rw [push1_full ⟨255 :: 255 :: m.take BLOCKSIZE, 0⟩ [] (m.take BLOCKSIZE)
          255 255 d (by simp) rfl hxlen]
        simp only [List.nil_append]
        rw [pushBytes_front ys ((Header.new BLOCKSIZE false).lo ::
            (Header.new BLOCKSIZE false).hi :: m.take BLOCKSIZE) 255 255 [d]
            (BLOCKSIZE - 1)
            (by have h1 : 1 ≤ BLOCKSIZE := by decide
                simp only [List.length_cons, List.length_nil]
                omega)]
        obtain ⟨A, cur, hbuf, hinv⟩ := pushBytes_shape ys
          ⟨255 :: 255 :: [d], BLOCKSIZE - 1⟩ [] [d] rfl
          (by have h1 : 1 ≤ BLOCKSIZE := by decide
              show ([d] : List Nat).length + (BLOCKSIZE - 1) = BLOCKSIZE
              simp only [List.length_cons, List.length_nil]
              omega)
        rw [end_reset_spec
          ⟨((Header.new BLOCKSIZE false).lo ::
              (Header.new BLOCKSIZE false).hi :: m.take BLOCKSIZE) ++
              (MapiBuf.pushBytes ⟨255 :: 255 :: [d], BLOCKSIZE - 1⟩ ys).buffer,
            (MapiBuf.pushBytes ⟨255 :: 255 :: [d], BLOCKSIZE - 1⟩ ys).block_left⟩
          (((Header.new BLOCKSIZE false).lo ::
              (Header.new BLOCKSIZE false).hi :: m.take BLOCKSIZE) ++ A) cur
          255 255
          (by dsimp only; rw [hbuf]; simp)
          (by dsimp only; exact hinv)]
        have hih := ih (d :: ys) (by
          have hd2 := congrArg List.length hy
          simp only [List.length_drop, List.length_cons] at hd2
          have h1 : 1 ≤ BLOCKSIZE := by decide
          simp only [List.length_cons]
          omega)
        have hY : MapiBuf.pushBytes MapiBuf.new (d :: ys)
            = MapiBuf.pushBytes ⟨255 :: 255 :: [d], BLOCKSIZE - 1⟩ ys := by
          rw [pushBytes_cons]
          congr 1
        rw [hY] at hih
        have hspecT := end_reset_spec
          (MapiBuf.pushBytes ⟨255 :: 255 :: [d], BLOCKSIZE - 1⟩ ys) A cur 255 255
          hbuf hinv
        rw [hspecT] at hih
        rw [← hih]
        simp

/-- C4: for every byte string m, every partition of m into write chunks
and every slicing of the resulting framed bytes into read chunks,
appending the chunks to the block writer and closing the message yields
framed bytes that the block reader deframes back to exactly m, leaving
the reader in the end-of-message state. -/
theorem c4_block_roundtrip (m : List Nat) (ws rs : List (List Nat))
    (hw : ws.flatten = m)
    (hr : rs.flatten = ((MapiBuf.appendAll MapiBuf.new ws).end_reset).1) :
    feedChunks .Start rs = some (.ok (m, .End)) := by
  apply feedChunks_runBytes
  rw [hr, appendAll_eq_pushBytes, hw,
    end_reset_pushBytes m.length m (le_refl _)]
  exact runBytes_frame m.length m (le_refl _)

theorem c4_block_roundtrip_witness :
    feedChunks .Start [[7, 0, 97], [98, 99]]
      = some (.ok ([97, 98, 99], .End)) :=
  c4_block_roundtrip [97, 98, 99] [[97], [98, 99]] [[7, 0, 97], [98, 99]]
    (by decide) (by decide)

/-! ### Redirect handling: establish_connection and process_redirects
(src/framing/connecting.rs lines 160-196 and 363-387) -/

/-- Byte list version of str::starts_with. -/
def startsWithBytes : List Nat → List Nat → Bool
  | [], _ => true
  | _ :: _, [] => false
  | p :: ps, b :: bs => p == b && startsWithBytes ps bs

/-- Mirrors enum Login of connecting.rs, with the socket and server
state payloads abstracted away. -/
inductive Login where
  | Redirect : List Nat → Login
  | Restart : Login
  | Complete : Login
deriving DecidableEq, Repr

/-- Mirrors process_redirects: trim the reply; empty or =OK succeeds; a
caret takes the first line, a merovingian proxy url restarts and any
other url redirects; a bang is a rejection carrying the rest; a hash is
a welcome message; anything else is unexpected. -/
def process_redirects (reply : List Nat) : Except ConnectError Login :=
  let r := trimAscii reply
  if r = [] || startsWithBytes (strBytes "=OK") r then
    .ok .Complete
  else if r.headD 0 = 94 then
    let first_line := r.takeWhile (fun b => b ≠ 10)
    let redirect := first_line.drop 1
    if startsWithBytes (strBytes "mapi:merovingian://proxy") redirect then
      .ok .Restart
    else
      .ok (.Redirect redirect)
  else if r.headD 0 = 33 then
    .error (.Rejected (r.drop 1))
  else if r.headD 0 = 35 then
    .ok .Complete
  else
    .error (.UnexpectedResponse r)

/-- The inner restart loop of establish_connection: each exchange k is
answered by replies k; a Restart stays in the loop on the same hop.
Fuel bounds the number of restarts; the result carries the index of the
next unused exchange. -/
def loginLoop (replies : Nat → List Nat) :
    Nat → Nat → Option (Except ConnectError (Login × Nat))
  | 0, _ => none
  | fuel + 1, k =>
    match process_redirects (replies k) with
    | .error e => some (.error e)
    | .ok .Restart => loginLoop replies fuel (k + 1)
    | .ok l => some (.ok (l, k + 1))

/-- Mirrors establish_connection: at most hops iterations of the
redirect loop (the source runs 10); a Redirect reapplies the url to the
parameters and reconnects, a Complete returns them, and an exhausted
loop fails with TooManyRedirects.  The parameters and apply_url are
abstract; the second result component counts the exchanges used. -/
def establish_connection {P : Type} (applyUrl : P → List Nat → P)
    (replies : Nat → List Nat) (restartFuel : Nat) :
    Nat → P → Nat → Option (Except ConnectError P × Nat)
  | 0, _, k => some (.error .TooManyRedirects, k)
  | hops + 1, p, k =>
    match loginLoop replies restartFuel k with
    | none => none
    | some (.error e) => some (.error e, k)
    | some (.ok (.Complete, k2)) => some (.ok p, k2)
    | some (.ok (.Redirect url, k2)) =>
      establish_connection applyUrl replies restartFuel hops (applyUrl p url) k2
    | some (.ok (.Restart, _)) => none

theorem establish_all_redirects {P : Type} (applyUrl : P → List Nat → P)
    (replies : Nat → List Nat) (restartFuel : Nat)
    (hfuel : 1 ≤ restartFuel)
    (hred : ∀ j, ∃ url, process_redirects (replies j) = .ok (.Redirect url)) :
    ∀ (hops : Nat) (p : P) (k : Nat),
      establish_connection applyUrl replies restartFuel hops p k
        = some (.error .TooManyRedirects, k + hops) := by
  intro hops
  induction hops with
  | zero => intro p k; rfl
  | succ hops ih =>
    intro p k
    obtain ⟨url, hurl⟩ := hred k
    cases restartFuel with
    | zero => omega
    | succ f =>
      rw [establish_connection]
      rw [show loginLoop replies (f + 1) k
          = some (.ok (.Redirect url, k + 1)) from by
        rw [loginLoop, hurl]]
      dsimp only
      rw [ih (applyUrl p url) (k + 1)]
      have hk : k + 1 + hops = k + (hops + 1) := by omega
      rw [hk]

/-- C9: for every sequence of handshake exchanges in which the server
answers each challenge response with a redirect line ^url that is not a
merovingian proxy restart, establish_connection reapplies the url and
reconnects at most ten times and then fails with TooManyRedirects
instead of reconnecting again. -/
theorem c9_ten_redirects_fail {P : Type} (applyUrl : P → List Nat → P)
    (replies : Nat → List Nat) (restartFuel : Nat) (p : P) (k : Nat)
    (hfuel : 1 ≤ restartFuel)
    (hred : ∀ j, ∃ url, process_redirects (replies j) = .ok (.Redirect url)) :
    establish_connection applyUrl replies restartFuel 10 p k
      = some (.error .TooManyRedirects, k + 10) :=
  establish_all_redirects applyUrl replies restartFuel hfuel hred 10 p k

theorem c9_ten_redirects_fail_witness :
    establish_connection (fun (p : Nat) (_ : List Nat) => p + 1)
      (fun _ => strBytes "^mapi:monetdb://localhost:50001/demo") 1 10 0 0
      = some (.error .TooManyRedirects, 0 + 10) :=
  c9_ten_redirects_fail _ _ _ _ _ (by decide)
    (fun _ => ⟨strBytes "mapi:monetdb://localhost:50001/demo", by decide⟩)
